import Mathlib

/-! # fsbrowse: the filesystem gateway


A shallow embedding of `src/index.js`: the path resolver (`sanitizePath`,
`makeResolver`), the classifier (`getFileType`, `checkPermissions`), the
directory lister, the view handler and the mutation handlers (`mkdir`,
`rename`, `move`), together with the parts of Node's `path` and `fs` modules
they call.

Strings are lists of characters.  Node's `path` is the POSIX flavour (the
default root is `/files`); `path.normalize`, `path.resolve`, `path.join`,
`path.dirname` and `path.basename` follow the algorithms of Node's
`lib/path.js`, stated on the `/`-separated segments of the path.
-/

namespace Fsbrowse

/-- A JavaScript string, as its list of characters. -/
abbrev Str := List Char

/-! ## Node's `path` module (POSIX) -/

/-- One separator-delimited segment of `normalizeString`: `res` is the stack of
segments kept so far, last segment first.  Empty segments and `.` are skipped,
`..` pops the last kept segment unless there is none or it is itself `..`, in
which case `..` is kept only when `allowAboveRoot`. -/
def normalizeStep (allowAboveRoot : Bool) (res : List Str) (seg : Str) : List Str :=
  if seg = [] ∨ seg = ['.'] then res
  else if seg = ['.', '.'] then
    match res with
    | [] => if allowAboveRoot then [['.', '.']] else []
    | last :: rest =>
      if last = ['.', '.'] then (if allowAboveRoot then ['.', '.'] :: res else res)
      else rest
  else seg :: res

/-- The segments `normalizeString` keeps, in path order. -/
def normalizeSegments (path : Str) (allowAboveRoot : Bool) : List Str :=
  ((path.splitOn '/').foldl (normalizeStep allowAboveRoot) []).reverse

/-- Node's internal `normalizeString(path, allowAboveRoot, '/', isPosixPathSeparator)`. -/
def normalizeString (path : Str) (allowAboveRoot : Bool) : Str :=
  ['/'].intercalate (normalizeSegments path allowAboveRoot)

/-- The test `path.charCodeAt(0) === CHAR_FORWARD_SLASH`. -/
def isAbsolute (path : Str) : Bool :=
  path.head? == some '/'

/-- The function `path.normalize`. -/
def normalize (path : Str) : Str :=
  if path = [] then ['.']
  else
    let trailingSeparator := path.getLast? == some '/'
    let p := normalizeString path (!isAbsolute path)
    if p = [] then
      if isAbsolute path then ['/']
      else if trailingSeparator then ['.', '/'] else ['.']
    else
      let p := if trailingSeparator then p ++ ['/'] else p
      if isAbsolute path then '/' :: p else p

/-- The loop of `path.resolve`: `args` are the arguments from the last to the
first, followed by the working directory; the loop stops at the first absolute
one.  Returns `resolvedPath` and `resolvedAbsolute`. -/
def resolveLoop : List Str → Str → Str × Bool
  | [], acc => (acc, false)
  | p :: ps, acc =>
    if p = [] then resolveLoop ps acc
    else if isAbsolute p then (p ++ '/' :: acc, true)
    else resolveLoop ps (p ++ '/' :: acc)

/-- The function `path.resolve(...args)` in a process whose working directory
is `cwd`. -/
def resolve (cwd : Str) (args : List Str) : Str :=
  let r := resolveLoop (args.reverse ++ [cwd]) []
  let resolvedPath := normalizeString r.1 (!r.2)
  if r.2 then '/' :: resolvedPath
  else if resolvedPath = [] then ['.'] else resolvedPath

/-- The function `path.join(...args)`. -/
def join (args : List Str) : Str :=
  let joined := ['/'].intercalate (args.filter (fun a => a ≠ []))
  if joined = [] then ['.'] else normalize joined

/-- The function `path.dirname`. -/
def dirname (path : Str) : Str :=
  match path with
  | [] => ['.']
  | c :: rest =>
    let hasRoot := c == '/'
    let beforeName := (rest.reverse.dropWhile (· == '/')).dropWhile (· != '/')
    match beforeName with
    | [] => if hasRoot then ['/'] else ['.']
    | _ :: before =>
      if hasRoot && before.isEmpty then ['/', '/'] else c :: before.reverse

/-- The function `path.basename` (no suffix argument). -/
def basename (path : Str) : Str :=
  ((path.reverse.dropWhile (· == '/')).takeWhile (· != '/')).reverse

/-! ## The resolver -/

/-- The `error` strings of the JSON envelope. -/
inductive ErrorCode
  | EPATHINJECTION | ENOENT | UNKNOWN | IS_DIRECTORY | FILE_TOO_LARGE
  | MISSING_FIELDS | EEXIST | RENAME_FAILED | INVALID_PATH | SOURCE_NOT_FOUND
  | DEST_DIR_NOT_FOUND | DEST_ALREADY_EXISTS | MOVE_FAILED | MKDIR_FAILED
  | UPLOAD_FAILED
  deriving DecidableEq, Repr

/-- The value of `resolveWithBaseDir`: `{ ok: true, path }` or
`{ ok: false, error }`. -/
inductive Resolved
  | ok (path : Str)
  | error (code : ErrorCode)
  deriving DecidableEq, Repr

/-- The replacement `.replace(/^(\.\.(\/|\\|$))+/, '')`: the longest leading
run of `..` each followed by `/`, by a backslash or by the end of the string
is removed. -/
def stripLeadingParents : Str → Str
  | c0 :: c1 :: c2 :: rest =>
    if c0 = '.' ∧ c1 = '.' ∧ (c2 = '/' ∨ c2 = '\\') then stripLeadingParents rest
    else c0 :: c1 :: c2 :: rest
  | s => if s = ['.', '.'] then [] else s

/-- The function `sanitizePath`. -/
def sanitizePath (p : Str) : Str :=
  stripLeadingParents (normalize p)

/-- The function `makeResolver(baseDir)` applied to `relPath`, in a process
whose working directory is `cwd`. -/
def makeResolver (cwd baseDir relPath : Str) : Resolved :=
  let sanitized := sanitizePath relPath
  let fullPath := resolve cwd [baseDir, sanitized]
  if !(baseDir.isPrefixOf fullPath) then Resolved.error ErrorCode.EPATHINJECTION
  else Resolved.ok fullPath

/-- The containment the specification asks of an accepted path: it is the root
itself, or it continues the root at a path-separator boundary. -/
def insideRoot (root path : Str) : Bool :=
  path == root ||
    (if root.getLast? == some '/' then root else root ++ ['/']).isPrefixOf path

/-- The function `path.extname`: the part of the last path component from its
last `.` on, empty when there is no `.`, when the `.` starts the component, or
when the component is `..`. -/
def extname (path : Str) : Str :=
  let name := basename path
  match name.reverse.dropWhile (· != '.') with
  | [] => []
  | _ :: before =>
    if before = [] ∨ name = ['.', '.'] then []
    else '.' :: (name.reverse.takeWhile (· != '.')).reverse

/-- Length of the longest common prefix of two segment lists. -/
def commonSegments : List Str → List Str → Nat
  | a :: as, b :: bs => if a = b then commonSegments as bs + 1 else 0
  | _, _ => 0

/-- The function `path.relative(from, to)`: one `..` for every segment of
`from` below the common ancestor, then the segments of `to` below it. -/
def relative (cwd fromPath toPath : Str) : Str :=
  if fromPath = toPath then []
  else
    let f := normalizeSegments (resolve cwd [fromPath]) false
    let t := normalizeSegments (resolve cwd [toPath]) false
    let n := commonSegments f t
    ['/'].intercalate (List.replicate (f.length - n) ['.', '.'] ++ t.drop n)

/-! ## The filesystem behind Node's `fs`

The state is a table from canonical absolute paths to nodes; the first entry
for a path is the one in force.  A symbolic link whose target exists is
represented by a node of the target's kind, because every call the gateway
makes (`fs.stat`, `fs.access`, `fs.existsSync`) follows links; a link whose
target is missing is a `brokenLink`: `readdir` lists it, `stat` fails on it. -/

/-- What a table entry is. -/
inductive Kind
  | file | dir | brokenLink
  deriving DecidableEq, Repr

/-- A filesystem node. -/
structure Node where
  kind : Kind
  size : Nat
  readable : Bool
  writable : Bool
  birthtime : Nat
  atime : Nat
  mtime : Nat
  deriving DecidableEq, Repr

/-- The filesystem state. -/
abbrev Fs := List (Str × Node)

/-- The table key of a path handed to `fs`. -/
def fsKey (path : Str) : Str :=
  resolve ['/'] [path]

/-- The node stored under a table key. -/
def nodeAt (fs : Fs) (key : Str) : Option Node :=
  (fs.find? (fun e => e.1 = key)).map (fun e => e.2)

/-- The node a path names, links not followed. -/
def lookupNode (fs : Fs) (path : Str) : Option Node :=
  nodeAt fs (fsKey path)

/-- The fields of `fs.Stats` the gateway reads. -/
structure Stat where
  isDirectory : Bool
  isSymbolicLink : Bool
  size : Nat
  birthtime : Nat
  atime : Nat
  mtime : Nat
  deriving DecidableEq, Repr

/-- The call `fs.stat(path)`; `none` when it throws.  It follows links, so it
fails on a broken link and never reports a symbolic link; a path with a
trailing separator must name a directory. -/
def fsStat (fs : Fs) (path : Str) : Option Stat :=
  match lookupNode fs path with
  | none => none
  | some n =>
    if n.kind = Kind.brokenLink then none
    else if n.kind ≠ Kind.dir ∧ path.getLast? = some '/' then none
    else some
      { isDirectory := n.kind = Kind.dir, isSymbolicLink := false, size := n.size,
        birthtime := n.birthtime, atime := n.atime, mtime := n.mtime }

/-- The call `fsSync.existsSync(path)`. -/
def existsSync (fs : Fs) (path : Str) : Bool :=
  (fsStat fs path).isSome

/-- The call `fs.access(path, R_OK)` succeeds. -/
def accessRead (fs : Fs) (path : Str) : Bool :=
  (fsStat fs path).isSome && (lookupNode fs path).any (fun n => n.readable)

/-- The call `fs.access(path, W_OK)` succeeds. -/
def accessWrite (fs : Fs) (path : Str) : Bool :=
  (fsStat fs path).isSome && (lookupNode fs path).any (fun n => n.writable)

/-- The call `fs.readdir(path)`: the names of the entries directly under a
readable directory, in table order; `none` when it throws. -/
def readdir (fs : Fs) (path : Str) : Option (List Str) :=
  match lookupNode fs path with
  | none => none
  | some n =>
    if n.kind = Kind.dir ∧ n.readable then
      some ((((fs.map (fun e => e.1)).filter
        (fun k => k ≠ fsKey path ∧ dirname k = fsKey path)).map basename).dedup)
    else none

/-- The proper ancestors of a canonical absolute path, the root first. -/
def ancestors (key : Str) : List Str :=
  let segs := normalizeSegments key false
  (List.range segs.length).map (fun i => '/' :: ['/'].intercalate (segs.take i))

/-- A directory as `fs.mkdir` creates it at time `now`. -/
def newDirectory (now : Nat) : Node :=
  { kind := Kind.dir, size := 4096, readable := true, writable := true,
    birthtime := now, atime := now, mtime := now }

/-- The longest name of a directory entry, in bytes (`NAME_MAX`). -/
def nameMax : Nat := 255

/-- The length of a name in bytes, as UTF-8. -/
def utf8Length (name : Str) : Nat :=
  (name.map Char.utf8Size).sum

/-- The call `fs.mkdir(path, { recursive: true })` at time `now`: the
filesystem it leaves, and whether it returned (`false` when it throws).  An
existing directory is accepted as it is; any other existing entry at the path
or among its ancestors is an error, and so is a nearest existing ancestor that
is not writable.  The missing directories are created one by one from the root
down, the path last; a name longer than `nameMax` stops the creation there
with an error, and the directories created before it stay. -/
def fsMkdir (now : Nat) (fs : Fs) (path : Str) : Fs × Bool :=
  let key := fsKey path
  match nodeAt fs key with
  | some n => (fs, n.kind = Kind.dir)
  | none =>
    let anc := ancestors key
    if anc.any (fun a => (nodeAt fs a).any (fun n => n.kind ≠ Kind.dir)) then (fs, false)
    else if ((anc.reverse.filterMap (nodeAt fs)).head?).any (fun n => !n.writable) then
      (fs, false)
    else
      let missing := (anc ++ [key]).filter (fun k => (nodeAt fs k).isNone)
      let created := missing.takeWhile (fun k => utf8Length (basename k) ≤ nameMax)
      ((created.reverse.map (fun k => (k, newDirectory now))) ++ fs,
        missing.all (fun k => utf8Length (basename k) ≤ nameMax))

/-- The key `k` is `root` or lies below it. -/
def keyUnder (root k : Str) : Bool :=
  k == root || (root ++ ['/']).isPrefixOf k

/-- The call `fs.rename(src, dst)`; `none` when it throws.  The source must
exist (links not followed), neither path is the root, the destination is not
inside the source, both parent directories exist and are writable, and an
existing destination is replaced only by an entry of its own sort (a directory
only over an empty directory).  The source and everything below it move to the
destination. -/
def fsRename (fs : Fs) (src dst : Str) : Option Fs :=
  let s := fsKey src
  let d := fsKey dst
  match nodeAt fs s with
  | none => none
  | some n =>
    if s = d then some fs
    else if s = ['/'] ∨ d = ['/'] ∨ keyUnder s d then none
    else if !((nodeAt fs (dirname s)).any (fun m => m.kind = Kind.dir ∧ m.writable)) then none
    else if !((nodeAt fs (dirname d)).any (fun m => m.kind = Kind.dir ∧ m.writable)) then none
    else if (nodeAt fs d).any (fun m =>
        if n.kind = Kind.dir then
          m.kind ≠ Kind.dir ∨ (fs.any (fun e => e.1 ≠ d ∧ keyUnder d e.1))
        else m.kind = Kind.dir) then none
    else
      some ((fs.filter (fun e => !keyUnder d e.1)).map
        (fun e => if keyUnder s e.1 then (d ++ e.1.drop s.length, e.2) else e))

/-! ## Classification and permissions -/

/-- The semantic types `getFileType` returns. -/
inductive FileType
  | dir | symlink | image | video | audio | text | code | archive | document | other
  deriving DecidableEq, Repr

/-- The table `fileTypeMap`, in the order of its keys. -/
def fileTypeMap : List (FileType × List Str) :=
  [ (FileType.image, ["jpg", "jpeg", "png", "gif", "webp", "svg", "bmp", "ico"].map String.toList),
    (FileType.video, ["mp4", "webm", "avi", "mov", "mkv", "flv", "wmv", "quicktime"].map String.toList),
    (FileType.audio, ["mp3", "wav", "flac", "aac", "m4a", "ogg", "wma", "opus"].map String.toList),
    (FileType.text, ["txt", "md", "json", "xml", "yaml", "yml", "toml", "csv", "log"].map String.toList),
    (FileType.code, ["js", "ts", "jsx", "tsx", "py", "java", "cpp", "c", "go", "rs", "rb", "php",
      "html", "css"].map String.toList),
    (FileType.archive, ["zip", "7z", "rar", "tar", "gz", "bz2", "xz"].map String.toList),
    (FileType.document, ["pdf", "doc", "docx", "xls", "xlsx", "ppt", "pptx", "odt", "ods",
      "odp"].map String.toList) ]

/-- The lowercase form of one character under `String.prototype.toLowerCase`,
exact on every character whose lowercase form holds an ASCII letter: `A` to
`Z`, U+212A KELVIN SIGN (which becomes `k`) and U+0130 (which becomes `i`
followed by U+0307).  Every other character lowercases outside ASCII, so it
cannot occur in an entry of `fileTypeMap`, and is left as it is. -/
def lowerChar (c : Char) : Str :=
  if c = Char.ofNat 0x212A then ['k']
  else if c = Char.ofNat 0x0130 then ['i', Char.ofNat 0x0307]
  else [c.toLower]

/-- The method `String.prototype.toLowerCase`. -/
def toLowerCase (s : Str) : Str :=
  (s.map lowerChar).flatten

/-- The function `getFileType`. -/
def getFileType (fs : Fs) (fullPath : Str) : FileType :=
  match fsStat fs fullPath with
  | none => FileType.other
  | some stat =>
    if stat.isDirectory then FileType.dir
    else if stat.isSymbolicLink then FileType.symlink
    else
      let ext := toLowerCase ((extname fullPath).drop 1)
      match fileTypeMap.find? (fun e => e.2.contains ext) with
      | some e => e.1
      | none => FileType.other

/-- The values of `checkPermissions`: `['read', 'write']`, `['read']` or
`'EACCES'`. -/
inductive Permissions
  | readWrite | read | EACCES
  deriving DecidableEq, Repr

/-- The function `checkPermissions`. -/
def checkPermissions (fs : Fs) (fullPath : Str) : Permissions :=
  if accessRead fs fullPath then
    if accessWrite fs fullPath then Permissions.readWrite else Permissions.read
  else Permissions.EACCES

/-! ## The handlers -/

/-- The JSON envelope: `{ ok: true, value }`, or `{ ok: false, error }` with
its HTTP status. -/
inductive Response (α : Type)
  | ok (value : α)
  | error (status : Nat) (code : ErrorCode)
  deriving DecidableEq, Repr

/-- The `time` object of a descriptor. -/
structure Times where
  create : Nat
  access : Nat
  modified : Nat
  deriving DecidableEq, Repr

/-- A child of a directory listing; `time` is absent when the child's stat
failed. -/
structure Child where
  name : Str
  type : FileType
  path : Str
  parentPath : Str
  permissions : Permissions
  size : Nat
  time : Option Times
  deriving DecidableEq, Repr

/-- The value of a successful `/api/list` response. -/
inductive Listing
  | file (name path parentPath : Str) (type : FileType) (permissions : Permissions)
      (size : Nat) (time : Times)
  | dir (name path parentPath : Str) (children : List Child) (time : Times)
  deriving DecidableEq, Repr

/-- The body of the loop over `entries` in `/api/list`, for the entry `name`. -/
def describeChild (fs : Fs) (fullPath relPath name : Str) : Child :=
  let childFullPath := join [fullPath, name]
  let childRelPath := join [relPath, name]
  let fileType := getFileType fs childFullPath
  let perms := checkPermissions fs childFullPath
  match fsStat fs childFullPath with
  | some childStat =>
    { name := name, type := fileType, path := childRelPath, parentPath := relPath,
      permissions := perms, size := childStat.size,
      time := some { create := childStat.birthtime, access := childStat.atime,
                     modified := childStat.mtime } }
  | none =>
    { name := name, type := fileType, path := childRelPath, parentPath := relPath,
      permissions := Permissions.EACCES, size := 0, time := none }

/-- The comparator handed to `children.sort`; `localeCompare` is the name
comparison of the JavaScript engine. -/
def compareChildren (localeCompare : Str → Str → Int) (a b : Child) : Int :=
  if a.type = FileType.dir ∧ b.type ≠ FileType.dir then -1
  else if a.type ≠ FileType.dir ∧ b.type = FileType.dir then 1
  else localeCompare a.name b.name

/-- The call `children.sort(comparator)`: a stable sort that puts `a` before
`b` when the comparator is not positive. -/
def sortChildren (localeCompare : Str → Str → Int) (children : List Child) : List Child :=
  children.insertionSort (fun a b => compareChildren localeCompare a b ≤ 0)

/-- The children of a directory listing: the loop over `entries`, then the
sort. -/
def listChildren (localeCompare : Str → Str → Int) (fs : Fs) (fullPath relPath : Str)
    (entries : List Str) : List Child :=
  sortChildren localeCompare (entries.map (describeChild fs fullPath relPath))

/-- The handler of `GET /api/list/:path(*)`; `param` is `req.params.path`
(empty when absent). -/
def listHandler (localeCompare : Str → Str → Int) (cwd baseDir : Str) (fs : Fs)
    (param : Str) : Response Listing :=
  let relPath := if param = [] then ['.', '/'] else param
  match makeResolver cwd baseDir relPath with
  | Resolved.error e => Response.error 400 e
  | Resolved.ok fullPath =>
    if !existsSync fs fullPath then Response.error 404 ErrorCode.ENOENT
    else
      match fsStat fs fullPath with
      | none => Response.error 500 ErrorCode.UNKNOWN
      | some stat =>
        if !stat.isDirectory then
          Response.ok (Listing.file (basename fullPath) relPath (dirname relPath)
            (getFileType fs fullPath) (checkPermissions fs fullPath) stat.size
            { create := stat.birthtime, access := stat.atime, modified := stat.mtime })
        else
          match readdir fs fullPath with
          | none => Response.error 500 ErrorCode.UNKNOWN
          | some entries =>
            Response.ok (Listing.dir (basename fullPath) relPath (dirname relPath)
              (listChildren localeCompare fs fullPath relPath entries)
              { create := stat.birthtime, access := stat.atime, modified := stat.mtime })

/-- The `close` handler of `POST /api/mkdir`; `dirPath` is the form field
`path` (empty when absent), `now` the time of the call.  Returns the response
and the filesystem it leaves. -/
def mkdirHandler (now : Nat) (cwd baseDir : Str) (fs : Fs) (dirPath : Str) :
    Response Str × Fs :=
  if dirPath = [] then (Response.error 400 ErrorCode.MISSING_FIELDS, fs)
  else
    match makeResolver cwd baseDir dirPath with
    | Resolved.error e => (Response.error 400 e, fs)
    | Resolved.ok fullPath =>
      if existsSync fs fullPath then (Response.error 400 ErrorCode.EEXIST, fs)
      else
        let made := fsMkdir now fs fullPath
        if made.2 then (Response.ok fullPath, made.1)
        else (Response.error 500 ErrorCode.MKDIR_FAILED, made.1)

/-- The path `newPath` that the rename handler hands to `fs.rename` as the
destination. -/
def renameDestination (fullPath newName : Str) : Str :=
  join [dirname fullPath, newName]

/-- The `close` handler of `POST /api/rename`, over the implementation
`rename` of `fs.rename`; `oldPath` and `newName` are the form fields `path` and
`name` (empty when absent). -/
def renameHandlerWith (rename : Fs → Str → Str → Option Fs) (cwd baseDir : Str) (fs : Fs)
    (oldPath newName : Str) : Response Str × Fs :=
  if oldPath = [] ∨ newName = [] then (Response.error 400 ErrorCode.MISSING_FIELDS, fs)
  else
    match makeResolver cwd baseDir oldPath with
    | Resolved.error e => (Response.error 400 e, fs)
    | Resolved.ok fullPath =>
      if !existsSync fs fullPath then (Response.error 404 ErrorCode.ENOENT, fs)
      else
        let newPath := renameDestination fullPath newName
        if existsSync fs newPath then (Response.error 400 ErrorCode.EEXIST, fs)
        else
          match rename fs fullPath newPath with
          | some fs' => (Response.ok (join [dirname oldPath, newName]), fs')
          | none => (Response.error 500 ErrorCode.RENAME_FAILED, fs)

/-- The `close` handler of `POST /api/rename`. -/
def renameHandler (cwd baseDir : Str) (fs : Fs) (oldPath newName : Str) :
    Response Str × Fs :=
  renameHandlerWith fsRename cwd baseDir fs oldPath newName

/-- The path `finalPath` that the move handler hands to `fs.rename` as the
destination. -/
def moveDestination (srcPath destDir : Str) : Str :=
  join [destDir, basename srcPath]

/-- The `close` handler of `POST /api/move`, over the implementation `rename`
of `fs.rename`; `source` and `destination` are the form fields of those names
(empty when absent). -/
def moveHandlerWith (rename : Fs → Str → Str → Option Fs) (cwd baseDir : Str) (fs : Fs)
    (source destination : Str) : Response Str × Fs :=
  if source = [] ∨ destination = [] then (Response.error 400 ErrorCode.MISSING_FIELDS, fs)
  else
    match makeResolver cwd baseDir source, makeResolver cwd baseDir destination with
    | Resolved.ok srcPath, Resolved.ok destDir =>
      if !existsSync fs srcPath then (Response.error 404 ErrorCode.SOURCE_NOT_FOUND, fs)
      else if !existsSync fs destDir then (Response.error 404 ErrorCode.DEST_DIR_NOT_FOUND, fs)
      else
        let finalPath := moveDestination srcPath destDir
        if existsSync fs finalPath then (Response.error 400 ErrorCode.DEST_ALREADY_EXISTS, fs)
        else
          match rename fs srcPath finalPath with
          | some fs' => (Response.ok (relative cwd baseDir finalPath), fs')
          | none => (Response.error 500 ErrorCode.MOVE_FAILED, fs)
    | _, _ => (Response.error 400 ErrorCode.INVALID_PATH, fs)

/-- The `close` handler of `POST /api/move`. -/
def moveHandler (cwd baseDir : Str) (fs : Fs) (source destination : Str) :
    Response Str × Fs :=
  moveHandlerWith fsRename cwd baseDir fs source destination

/-- The encodings `/api/view` passes to `fs.readFile`. -/
inductive Encoding
  | utf8 | binary
  deriving DecidableEq, Repr

/-- The handler of `GET /api/view/:path(*)`; `param` is `req.params.path`.
The bytes of a file are not part of `Fs`: `readFile path encoding` is the call
`fs.readFile(path, encoding)`, `none` when it rejects.  The value is the
`value` and `size` of the response. -/
def viewHandler (readFile : Str → Encoding → Option Str) (cwd baseDir : Str) (fs : Fs)
    (param : Str) : Response (Str × Nat) :=
  match makeResolver cwd baseDir param with
  | Resolved.error e => Response.error 400 e
  | Resolved.ok fullPath =>
    if !existsSync fs fullPath then Response.error 404 ErrorCode.ENOENT
    else
      match fsStat fs fullPath with
      | none => Response.error 500 ErrorCode.UNKNOWN
      | some stat =>
        if stat.isDirectory then Response.error 400 ErrorCode.IS_DIRECTORY
        else if stat.size > 5 * 1024 * 1024 then
          Response.error 413 ErrorCode.FILE_TOO_LARGE
        else
          match readFile fullPath Encoding.utf8 with
          | some content => Response.ok (content, stat.size)
          | none =>
            match readFile fullPath Encoding.binary with
            | some _ =>
              Response.ok ("[Binary file - ".toList ++ (Nat.repr stat.size).toList
                ++ " bytes]".toList, stat.size)
            | none => Response.error 500 ErrorCode.UNKNOWN

/-! ## Invariants of the segment stack -/

/-- A segment `normalizeString` may keep: not empty, not `.`, free of `/`. -/
def KeptSegment (s : Str) : Prop :=
  s ≠ [] ∧ s ≠ ['.'] ∧ '/' ∉ s

/-- Every `..` on the stack sits on a `..` at the bottom: the kept `..`
segments are the leading ones. -/
def ParentsAtBottom (st : List Str) : Prop :=
  ∀ s ∈ st, s = ['.', '.'] → st.getLast? = some ['.', '.']

/-- The stack of segments `path.normalize` keeps for a relative path. -/
def relativeStack (p : Str) : List Str :=
  (p.splitOn '/').foldl (normalizeStep true) []

/-! ## Sample states -/

/-- A node of the given kind and size that its owner may read and write. -/
def plainNode (kind : Kind) (size : Nat) : Node :=
  { kind := kind, size := size, readable := true, writable := true,
    birthtime := 0, atime := 0, mtime := 0 }

/-- A root `/files` holding the directory `a` with the file `a/b.txt`. -/
def nestedFs : Fs :=
  [ ("/".toList, plainNode Kind.dir 4096),
    ("/files".toList, plainNode Kind.dir 4096),
    ("/files/a".toList, plainNode Kind.dir 4096),
    ("/files/a/b.txt".toList, plainNode Kind.file 3) ]

/-- A filesystem holding the root directory `/` only. -/
def bareFs : Fs :=
  [ ("/".toList, plainNode Kind.dir 4096) ]

/-- A root `/files` holding `b.txt`, the directory `A` and `a.txt`, in that
order. -/
def listedFs : Fs :=
  [ ("/".toList, plainNode Kind.dir 4096),
    ("/files".toList, plainNode Kind.dir 4096),
    ("/files/b.txt".toList, plainNode Kind.file 7),
    ("/files/A".toList, plainNode Kind.dir 4096),
    ("/files/a.txt".toList, plainNode Kind.file 5) ]

/-- The filesystem `listedFs` with its entries enumerated in another order. -/
def listedFsReordered : Fs :=
  [ ("/".toList, plainNode Kind.dir 4096),
    ("/files".toList, plainNode Kind.dir 4096),
    ("/files/a.txt".toList, plainNode Kind.file 5),
    ("/files/b.txt".toList, plainNode Kind.file 7),
    ("/files/A".toList, plainNode Kind.dir 4096) ]

/-- A name comparison for the examples: code-unit order, a prefix first. -/
def codeUnitCompare : Str → Str → Int
  | [], [] => 0
  | [], _ :: _ => -1
  | _ :: _, [] => 1
  | a :: as, b :: bs =>
    if a < b then -1 else if b < a then 1 else codeUnitCompare as bs

/-- Canonical composition of the letter `e` followed by U+0301 COMBINING ACUTE
ACCENT into U+00E9, the one canonical equivalence the examples need. -/
def composeAcute : Str → Str
  | [] => []
  | c :: rest =>
    match composeAcute rest with
    | [] => [c]
    | d :: out =>
      if c = 'e' ∧ d = Char.ofNat 0x0301 then Char.ofNat 0x00E9 :: out else c :: d :: out

/-- A name comparison for the examples that, as `localeCompare` does, answers 0
on canonically equivalent names: code-unit order of the composed forms. -/
def canonicalCompare (a b : Str) : Int :=
  codeUnitCompare (composeAcute a) (composeAcute b)

/-- The name `é.txt` with U+00E9. -/
def composedName : Str :=
  Char.ofNat 0x00E9 :: ".txt".toList

/-- The name `é.txt` with `e` followed by U+0301. -/
def decomposedName : Str :=
  'e' :: Char.ofNat 0x0301 :: ".txt".toList

/-- A root `/files` holding two files whose names are canonically equivalent,
the composed one enumerated first. -/
def accentFs : Fs :=
  [ ("/".toList, plainNode Kind.dir 4096),
    ("/files".toList, plainNode Kind.dir 4096),
    ("/files/".toList ++ composedName, plainNode Kind.file 1),
    ("/files/".toList ++ decomposedName, plainNode Kind.file 2) ]

/-- The filesystem `accentFs` with the decomposed name enumerated first. -/
def accentFsSwapped : Fs :=
  [ ("/".toList, plainNode Kind.dir 4096),
    ("/files".toList, plainNode Kind.dir 4096),
    ("/files/".toList ++ decomposedName, plainNode Kind.file 2),
    ("/files/".toList ++ composedName, plainNode Kind.file 1) ]

/-- The names of the children of a directory listing, in the order of the
response. -/
def listedNames : Response Listing → List Str
  | Response.ok (Listing.dir _ _ _ children _) => children.map Child.name
  | _ => []

/-- A root `/files` holding the directory `a` with the file `a/b.txt`, and the
broken link `b.txt`. -/
def danglingDestFs : Fs :=
  [ ("/".toList, plainNode Kind.dir 4096),
    ("/files".toList, plainNode Kind.dir 4096),
    ("/files/a".toList, plainNode Kind.dir 4096),
    ("/files/a/b.txt".toList, plainNode Kind.file 3),
    ("/files/b.txt".toList, plainNode Kind.brokenLink 0) ]

/-- A root `/files` holding the file `ok.txt` and the broken link `gone`. -/
def danglingFs : Fs :=
  [ ("/".toList, plainNode Kind.dir 4096),
    ("/files".toList, plainNode Kind.dir 4096),
    ("/files/ok.txt".toList, plainNode Kind.file 2),
    ("/files/gone".toList, plainNode Kind.brokenLink 0) ]

/-- A root `/files` holding one file of the given size, `big.bin`. -/
def sizedFs (size : Nat) : Fs :=
  [ ("/".toList, plainNode Kind.dir 4096),
    ("/files".toList, plainNode Kind.dir 4096),
    ("/files/big.bin".toList, plainNode Kind.file size) ]

/-- A `readFile` that yields the text `data` for every path and encoding. -/
def readsData (_path : Str) (_encoding : Encoding) : Option Str :=
  some "data".toList

/-- A `readFile` that rejects every call. -/
def readsNothing (_path : Str) (_encoding : Encoding) : Option Str :=
  none

/-- A root `/files` holding `x.png`, a symbolic link to a regular file (so a
node of kind `file`, as `fs.stat` sees it), and `gone.png`, a symbolic link
whose target is missing. -/
def linkedFs : Fs :=
  [ ("/".toList, plainNode Kind.dir 4096),
    ("/files".toList, plainNode Kind.dir 4096),
    ("/files/x.png".toList, plainNode Kind.file 9),
    ("/files/gone.png".toList, plainNode Kind.brokenLink 0) ]

/-- A root `/files` holding the regular files `x.PNG`, `x.png` and `notes`. -/
def caseFs : Fs :=
  [ ("/".toList, plainNode Kind.dir 4096),
    ("/files".toList, plainNode Kind.dir 4096),
    ("/files/x.PNG".toList, plainNode Kind.file 9),
    ("/files/x.png".toList, plainNode Kind.file 9),
    ("/files/notes".toList, plainNode Kind.file 4) ]

/-! ## Segments of a path -/

theorem splitOn_slash_append (a b : Str) :
    (a ++ '/' :: b).splitOn '/' = a.splitOn '/' ++ b.splitOn '/' := by
  induction a with
  | nil => simp [List.splitOn]
  | cons c a ih =>
    simp only [List.splitOn, List.cons_append, List.splitOnP_cons] at ih ⊢
    split
    · simp [ih]
    · rw [ih]
      cases h : List.splitOnP (fun x => x == '/') a with
      | nil => exact absurd h (List.splitOnP_ne_nil _ _)
      | cons x xs => simp [List.modifyHead]

theorem slash_not_mem_of_mem_splitOn (l seg : Str) (h : seg ∈ l.splitOn '/') :
    '/' ∉ seg := by
  induction l generalizing seg with
  | nil => simp [List.splitOn] at h; simp [h]
  | cons c l ih =>
    simp only [List.splitOn, List.splitOnP_cons] at ih h
    split at h
    · rcases List.mem_cons.1 h with h | h
      · simp [h]
      · exact ih _ h
    · rename_i hc
      cases hs : List.splitOnP (fun x => x == '/') l with
      | nil => exact absurd hs (List.splitOnP_ne_nil _ _)
      | cons x xs =>
        rw [hs] at h ih
        simp only [List.modifyHead, List.mem_cons] at h
        rcases h with h | h
        · subst h
          have hx := ih x (List.mem_cons_self _ _)
          intro hmem
          rcases List.mem_cons.1 hmem with e | e
          · exact hc (by simp [← e])
          · exact hx e
        · exact ih _ (List.mem_cons_of_mem _ h)

theorem stripLeadingParents_length_le (s : Str) :
    (stripLeadingParents s).length ≤ s.length := by
  induction s using stripLeadingParents.induct with
  | case1 c0 c1 c2 rest h ih =>
    rw [stripLeadingParents, if_pos h]; simp only [List.length_cons]; omega
  | case2 c0 c1 c2 rest h =>
    rw [stripLeadingParents, if_neg h]
  | case3 _ => simp [stripLeadingParents]
  | case4 s h h2 =>
    rw [stripLeadingParents]
    · rw [if_neg h2]
    · exact h

theorem normalizeStep_kept (allow : Bool) (st : List Str) (seg : Str)
    (hst : ∀ s ∈ st, KeptSegment s) (hseg : '/' ∉ seg) :
    ∀ s ∈ normalizeStep allow st seg, KeptSegment s := by
  unfold normalizeStep
  split
  · exact hst
  · rename_i h1
    have hdd : KeptSegment ['.', '.'] := by
      refine ⟨by simp, by simp, by decide⟩
    split
    · cases st with
      | nil =>
        cases allow <;> simp
        exact hdd
      | cons last rest =>
        simp only
        split
        · cases allow
          · simpa using hst
          · intro s hs
            rcases List.mem_cons.1 hs with e | e
            · exact e ▸ hdd
            · exact hst s e
        · intro s hs
          exact hst s (List.mem_cons_of_mem _ hs)
    · intro s hs
      rcases List.mem_cons.1 hs with e | e
      · subst e
        exact ⟨fun e => h1 (Or.inl e), fun e => h1 (Or.inr e), hseg⟩
      · exact hst s e

theorem foldl_normalizeStep_kept (allow : Bool) (segs : List Str) (st : List Str)
    (hst : ∀ s ∈ st, KeptSegment s) (hsegs : ∀ seg ∈ segs, '/' ∉ seg) :
    ∀ s ∈ segs.foldl (normalizeStep allow) st, KeptSegment s := by
  induction segs generalizing st with
  | nil => simpa using hst
  | cons seg segs ih =>
    rw [List.foldl_cons]
    exact ih _ (normalizeStep_kept allow st seg hst (hsegs seg (List.mem_cons_self _ _)))
      (fun s hs => hsegs s (List.mem_cons_of_mem _ hs))

theorem normalizeStep_parentsAtBottom (st : List Str) (seg : Str)
    (hst : ParentsAtBottom st) : ParentsAtBottom (normalizeStep true st seg) := by
  unfold normalizeStep
  split
  · exact hst
  · split
    · cases st with
      | nil => intro s _ _; rfl
      | cons last rest =>
        simp only [if_true]
        split
        · rename_i hl
          intro s _ _
          rw [List.getLast?_cons_cons]
          exact hst last (List.mem_cons_self _ _) hl
        · intro s hs hdd
          have := hst s (List.mem_cons_of_mem _ hs) hdd
          cases rest with
          | nil => cases hs
          | cons r rs => rwa [List.getLast?_cons_cons] at this
    · rename_i hne
      intro s hs hdd
      rcases List.mem_cons.1 hs with e | e
      · exact absurd (e ▸ hdd) hne
      · cases st with
        | nil => cases e
        | cons r rs =>
          rw [List.getLast?_cons_cons]
          exact hst s e hdd

theorem foldl_normalizeStep_parentsAtBottom (segs : List Str) (st : List Str)
    (hst : ParentsAtBottom st) :
    ParentsAtBottom (segs.foldl (normalizeStep true) st) := by
  induction segs generalizing st with
  | nil => exact hst
  | cons seg segs ih => exact ih _ (normalizeStep_parentsAtBottom st seg hst)

/-- Segments that are kept and are not `..` are pushed one after the other. -/
theorem foldl_normalizeStep_push (allow : Bool) (segs : List Str) (st : List Str)
    (hsegs : ∀ s ∈ segs, KeptSegment s ∧ s ≠ ['.', '.']) :
    segs.foldl (normalizeStep allow) st = segs.reverse ++ st := by
  induction segs generalizing st with
  | nil => rfl
  | cons seg segs ih =>
    have h := hsegs seg (List.mem_cons_self _ _)
    have hstep : normalizeStep allow st seg = seg :: st := by
      unfold normalizeStep
      rw [if_neg (by rintro (e | e); exact h.1.1 e; exact h.1.2.1 e), if_neg h.2]
    rw [List.foldl_cons, hstep, ih _ (fun s hs => hsegs s (List.mem_cons_of_mem _ hs))]
    simp

theorem intercalate_cons_cons (a b : Str) (l : List Str) :
    ['/'].intercalate (a :: b :: l) = a ++ '/' :: ['/'].intercalate (b :: l) := by
  simp [List.intercalate]

theorem intercalate_singleton (a : Str) : ['/'].intercalate [a] = a := by
  simp [List.intercalate]

theorem intercalate_append (xs ys : List Str) (hx : xs ≠ []) (hy : ys ≠ []) :
    ['/'].intercalate (xs ++ ys)
      = ['/'].intercalate xs ++ '/' :: ['/'].intercalate ys := by
  induction xs with
  | nil => exact absurd rfl hx
  | cons a xs ih =>
    cases xs with
    | nil =>
      cases ys with
      | nil => exact absurd rfl hy
      | cons b ys => simp [intercalate_cons_cons, intercalate_singleton]
    | cons b xs =>
      have := ih (by simp)
      rw [List.cons_append, List.cons_append, intercalate_cons_cons, ← List.cons_append,
        this, intercalate_cons_cons]
      simp

theorem intercalate_prefix_append (xs ys : List Str) :
    ['/'].intercalate xs <+: ['/'].intercalate (xs ++ ys) := by
  by_cases hx : xs = []
  · subst hx; simp [List.intercalate]
  · by_cases hy : ys = []
    · subst hy; simp
    · rw [intercalate_append xs ys hx hy]
      exact List.prefix_append _ _

theorem intercalate_ne_nil (a : Str) (l : List Str) (ha : a ≠ []) :
    ['/'].intercalate (a :: l) ≠ [] := by
  cases l with
  | nil => simpa [intercalate_singleton] using ha
  | cons b l => rw [intercalate_cons_cons]; simp [ha]

theorem head?_intercalate (a : Str) (l : List Str) (ha : a ≠ []) :
    (['/'].intercalate (a :: l)).head? = a.head? := by
  cases a with
  | nil => exact absurd rfl ha
  | cons c a =>
    cases l with
    | nil => simp [intercalate_singleton]
    | cons b l => rw [intercalate_cons_cons]; simp

theorem relativeStack_kept (p : Str) : ∀ s ∈ relativeStack p, KeptSegment s :=
  foldl_normalizeStep_kept true _ [] (by simp) (fun seg h => slash_not_mem_of_mem_splitOn p seg h)

theorem relativeStack_parentsAtBottom (p : Str) : ParentsAtBottom (relativeStack p) :=
  foldl_normalizeStep_parentsAtBottom _ [] (by intro s hs; cases hs)

/-- The shape of `path.normalize` on a relative path. -/
theorem normalize_relative (p : Str) (hp : isAbsolute p = false) :
    (relativeStack p = [] ∧ (normalize p = ['.'] ∨ normalize p = ['.', '/'])) ∨
    (relativeStack p ≠ [] ∧
      (normalize p = ['/'].intercalate (relativeStack p).reverse ∨
       normalize p = ['/'].intercalate (relativeStack p).reverse ++ ['/'])) := by
  unfold normalize
  by_cases hnil : p = []
  · subst hnil
    left
    exact ⟨by decide, Or.inl (by simp)⟩
  · rw [if_neg hnil]
    simp only [hp, Bool.not_false, Bool.false_eq_true, if_false]
    have hseg : normalizeString p true = ['/'].intercalate (relativeStack p).reverse := rfl
    cases hst : (relativeStack p).reverse with
    | nil =>
      left
      have h0 : relativeStack p = [] := by simpa using hst
      refine ⟨h0, ?_⟩
      rw [hseg, hst]
      simp only [List.intercalate, List.intersperse_nil, List.flatten_nil, if_true]
      split
      · exact Or.inr rfl
      · exact Or.inl rfl
    | cons a l =>
      right
      have h0 : relativeStack p ≠ [] := by
        intro e; rw [e] at hst; cases hst
      refine ⟨h0, ?_⟩
      have ha : a ≠ [] :=
        (relativeStack_kept p a (by
          have : a ∈ (relativeStack p).reverse := by rw [hst]; exact List.mem_cons_self _ _
          simpa using this)).1
      rw [hseg, hst, if_neg (intercalate_ne_nil a l ha)]
      split
      · exact Or.inr rfl
      · exact Or.inl rfl

theorem normalize_relative_ne_nil (p : Str) (hp : isAbsolute p = false) :
    normalize p ≠ [] := by
  rcases normalize_relative p hp with ⟨_, h | h⟩ | ⟨hne, h | h⟩
  · simp [h]
  · simp [h]
  · cases hst : (relativeStack p).reverse with
    | nil => exact absurd (by simpa using hst) hne
    | cons a l =>
      rw [h, hst]
      exact intercalate_ne_nil a l
        (relativeStack_kept p a (by
          have : a ∈ (relativeStack p).reverse := by rw [hst]; exact List.mem_cons_self _ _
          simpa using this)).1
  · simp [h]

theorem normalize_relative_isAbsolute (p : Str) (hp : isAbsolute p = false) :
    isAbsolute (normalize p) = false := by
  rcases normalize_relative p hp with ⟨_, h | h⟩ | ⟨hne, h⟩
  · rw [h]; decide
  · rw [h]; decide
  · cases hst : (relativeStack p).reverse with
    | nil => exact absurd (by simpa using hst) hne
    | cons a l =>
      have hk : KeptSegment a := relativeStack_kept p a (by
        have : a ∈ (relativeStack p).reverse := by rw [hst]; exact List.mem_cons_self _ _
        simpa using this)
      have hhead : (['/'].intercalate (a :: l)).head? ≠ some '/' := by
        rw [head?_intercalate a l hk.1]
        intro e
        exact hk.2.2 (List.mem_of_mem_head? e)
      have hne' : ['/'].intercalate (a :: l) ≠ [] := intercalate_ne_nil a l hk.1
      rw [hst] at h
      have : (normalize p).head? = (['/'].intercalate (a :: l)).head? := by
        rcases h with h | h
        · rw [h]
        · rw [h]
          cases hq : ['/'].intercalate (a :: l) with
          | nil => exact absurd hq hne'
          | cons c q => simp
      simp only [isAbsolute, this]
      simpa using hhead

/-- When `sanitizePath` finds nothing to strip, the normalized relative path
has no `..` segment at all. -/
theorem relativeStack_no_parent (p : Str) (hp : isAbsolute p = false)
    (hstrip : stripLeadingParents (normalize p) = normalize p) :
    ∀ s ∈ relativeStack p, s ≠ ['.', '.'] := by
  intro s hs hdd
  have hlast := relativeStack_parentsAtBottom p s hs hdd
  have hhead : (relativeStack p).reverse.head? = some ['.', '.'] := by
    rw [List.head?_reverse]; exact hlast
  cases hst : (relativeStack p).reverse with
  | nil => rw [hst] at hhead; cases hhead
  | cons a l =>
    rw [hst] at hhead
    have ha : a = ['.', '.'] := by simpa using hhead
    subst ha
    have hne : relativeStack p ≠ [] := by
      intro e; rw [e] at hs; cases hs
    rcases normalize_relative p hp with ⟨h0, _⟩ | ⟨_, h⟩
    · exact hne h0
    · rw [hst] at h
      cases l with
      | nil =>
        rcases h with h | h
        · rw [h] at hstrip; revert hstrip; decide
        · rw [h] at hstrip; revert hstrip; decide
      | cons b l =>
        rw [intercalate_cons_cons] at h
        have key : ∀ u : Str, stripLeadingParents ('.' :: '.' :: '/' :: u)
            ≠ '.' :: '.' :: '/' :: u := by
          intro u e
          have hl := stripLeadingParents_length_le u
          rw [stripLeadingParents, if_pos (by simp)] at e
          rw [e] at hl
          simp only [List.length_cons] at hl
          omega
        rcases h with h | h
        · rw [h] at hstrip; exact key _ hstrip
        · rw [h] at hstrip; exact key _ hstrip

/-- The segments of an unstripped normalized relative path are pushed as they
are onto whatever `path.resolve` has already kept. -/
theorem foldl_normalize_unstripped (allow : Bool) (p : Str) (st : List Str)
    (hp : isAbsolute p = false)
    (hstrip : stripLeadingParents (normalize p) = normalize p) :
    ((normalize p).splitOn '/').foldl (normalizeStep allow) st = relativeStack p ++ st := by
  have hplain : ∀ s ∈ (relativeStack p).reverse, KeptSegment s ∧ s ≠ ['.', '.'] := by
    intro s hs
    have hs' : s ∈ relativeStack p := by simpa using hs
    exact ⟨relativeStack_kept p s hs', relativeStack_no_parent p hp hstrip s hs'⟩
  rcases normalize_relative p hp with ⟨h0, h | h⟩ | ⟨hne, h⟩
  · rw [h, h0]; rfl
  · rw [h, h0]; rfl
  · have hne' : (relativeStack p).reverse ≠ [] := by simpa using hne
    have hsplit : (['/'].intercalate (relativeStack p).reverse).splitOn '/'
        = (relativeStack p).reverse :=
      List.splitOn_intercalate _ '/' (fun l hl => (hplain l hl).1.2.2) hne'
    rcases h with h | h
    · rw [h, hsplit, foldl_normalizeStep_push allow _ st hplain]
      simp
    · rw [h, splitOn_slash_append, hsplit, List.foldl_append,
        foldl_normalizeStep_push allow _ st hplain]
      simp [List.splitOn, normalizeStep]

/-- The function `path.resolve(root, s)` for an absolute `root` and a non-empty
relative `s`: the working directory is never consulted. -/
theorem resolve_absolute_relative (cwd root s : Str) (hroot : isAbsolute root = true)
    (hs : s ≠ []) (hrel : isAbsolute s = false) :
    resolve cwd [root, s] = '/' :: normalizeString (root ++ '/' :: (s ++ ['/'])) false := by
  have hroot0 : root ≠ [] := by
    intro e; rw [e] at hroot; exact absurd hroot (by decide)
  simp [resolve, resolveLoop, hs, hrel, hroot, hroot0]

theorem resolve_absolute_single (cwd root : Str) (hroot : isAbsolute root = true) :
    resolve cwd [root] = '/' :: normalizeString (root ++ ['/']) false := by
  have hroot0 : root ≠ [] := by
    intro e; rw [e] at hroot; exact absurd hroot (by decide)
  simp [resolve, resolveLoop, hroot, hroot0]

theorem normalizeSegments_append_slash (root : Str) (allow : Bool) :
    normalizeSegments (root ++ ['/']) allow = normalizeSegments root allow := by
  unfold normalizeSegments
  rw [splitOn_slash_append, List.foldl_append]
  simp [List.splitOn, normalizeStep]

/-- The resolver on a relative path from which `sanitizePath` strips nothing,
against a canonical absolute root (`path.resolve(root) = root`): the path is
accepted, and the accepted path is made of the segments of the root followed by
the segments of the normalized input. -/
theorem makeResolver_unstripped (cwd root p : Str)
    (hroot : isAbsolute root = true) (hcanon : resolve cwd [root] = root)
    (hp : isAbsolute p = false)
    (hstrip : stripLeadingParents (normalize p) = normalize p) :
    makeResolver cwd root p
      = Resolved.ok ('/' :: ['/'].intercalate
          (normalizeSegments root false ++ normalizeSegments p true)) := by
  have hfull : resolve cwd [root, sanitizePath p]
      = '/' :: ['/'].intercalate
          (normalizeSegments root false ++ normalizeSegments p true) := by
    unfold sanitizePath
    rw [hstrip, resolve_absolute_relative cwd root _ hroot
      (normalize_relative_ne_nil p hp) (normalize_relative_isAbsolute p hp)]
    unfold normalizeString
    congr 2
    unfold normalizeSegments
    rw [splitOn_slash_append, splitOn_slash_append, List.foldl_append, List.foldl_append,
      foldl_normalize_unstripped false p _ hp hstrip]
    simp [List.splitOn, normalizeStep, relativeStack]
  have hrootEq : root = '/' :: ['/'].intercalate (normalizeSegments root false) := by
    have h := resolve_absolute_single cwd root hroot
    rw [hcanon] at h
    rw [normalizeString, normalizeSegments_append_slash] at h
    exact h
  unfold makeResolver
  simp only [hfull]
  have hpre : root.isPrefixOf ('/' :: ['/'].intercalate
      (normalizeSegments root false ++ normalizeSegments p true)) = true := by
    rw [List.isPrefixOf_iff_prefix]
    conv_lhs => rw [hrootEq]
    obtain ⟨t, ht⟩ := intercalate_prefix_append (normalizeSegments root false)
      (normalizeSegments p true)
    exact ⟨t, by rw [← ht]; simp⟩
  simp [hpre]

theorem normalize_absolute (q : Str) (hq : isAbsolute q = true) :
    normalize q =
      if normalizeString q false = [] then ['/']
      else '/' :: (if q.getLast? == some '/' then normalizeString q false ++ ['/']
        else normalizeString q false) := by
  have hq0 : q ≠ [] := by
    intro e; rw [e] at hq; exact absurd hq (by decide)
  unfold normalize
  simp [hq0, hq]

/-- Under the hypotheses of `makeResolver_unstripped`, `path.join(root,
path.normalize(p))` is the accepted path, up to the trailing separator that
`path.join` keeps and `path.resolve` drops. -/
theorem join_root_normalize (root p : Str)
    (hroot : isAbsolute root = true)
    (hp : isAbsolute p = false)
    (hstrip : stripLeadingParents (normalize p) = normalize p) :
    join [root, normalize p]
        = '/' :: ['/'].intercalate (normalizeSegments root false ++ normalizeSegments p true) ∨
    join [root, normalize p]
        = '/' :: ['/'].intercalate (normalizeSegments root false ++ normalizeSegments p true)
            ++ ['/'] := by
  have hroot0 : root ≠ [] := by
    intro e; rw [e] at hroot; exact absurd hroot (by decide)
  have hnp := normalize_relative_ne_nil p hp
  have hjoined : ['/'].intercalate ([root, normalize p].filter (fun a => a ≠ []))
      = root ++ '/' :: normalize p := by
    simp [hroot0, hnp, intercalate_cons_cons, intercalate_singleton]
  have habs : isAbsolute (root ++ '/' :: normalize p) = true := by
    cases root with
    | nil => exact absurd rfl hroot0
    | cons c r => simpa [isAbsolute] using hroot
  have hsegs : normalizeSegments (root ++ '/' :: normalize p) false
      = normalizeSegments root false ++ normalizeSegments p true := by
    unfold normalizeSegments
    rw [splitOn_slash_append, List.foldl_append,
      foldl_normalize_unstripped false p _ hp hstrip]
    simp [relativeStack]
  unfold join
  simp only [hjoined]
  rw [if_neg (by simp), normalize_absolute _ habs, normalizeString, hsegs]
  split
  · rename_i h0
    left
    rw [h0]
  · split
    · right; simp
    · left; rfl

/-! ## The mutation handlers -/

theorem existsSync_of_nodeAt_dir (fs : Fs) (path : Str) (n : Node)
    (h : nodeAt fs (fsKey path) = some n) (hk : n.kind = Kind.dir) :
    existsSync fs path = true := by
  simp [existsSync, fsStat, lookupNode, h, hk]

/-- After a successful `fs.mkdir` of a path that did not exist, the path
exists. -/
theorem existsSync_fsMkdir (now : Nat) (fs : Fs) (path : Str)
    (hne : existsSync fs path = false) (hmk : (fsMkdir now fs path).2 = true) :
    existsSync (fsMkdir now fs path).1 path = true := by
  unfold fsMkdir at hmk ⊢
  cases hn : nodeAt fs (fsKey path) with
  | some n =>
    simp only [hn] at hmk ⊢
    have hk : n.kind = Kind.dir := by simpa using hmk
    rw [existsSync_of_nodeAt_dir fs path n hn hk] at hne
    cases hne
  | none =>
    simp only [hn] at hmk ⊢
    split at hmk
    · cases hmk
    · split at hmk
      · cases hmk
      · rename_i h1 h2
        rw [if_neg h1, if_neg h2]
        simp only
        have hall : ∀ k ∈ ((ancestors (fsKey path) ++ [fsKey path]).filter
            (fun k => (nodeAt fs k).isNone)),
            (decide (utf8Length (basename k) ≤ nameMax)) = true :=
          fun k hk => List.all_eq_true.1 hmk k hk
        have htake : ((ancestors (fsKey path) ++ [fsKey path]).filter
            (fun k => (nodeAt fs k).isNone)).takeWhile
              (fun k => decide (utf8Length (basename k) ≤ nameMax))
            = (ancestors (fsKey path) ++ [fsKey path]).filter
              (fun k => (nodeAt fs k).isNone) :=
          List.takeWhile_eq_self_iff.2 hall
        rw [htake, List.filter_append]
        have hlast : [fsKey path].filter (fun k => (nodeAt fs k).isNone) = [fsKey path] := by
          simp [hn]
        rw [hlast]
        apply existsSync_of_nodeAt_dir _ path (newDirectory now) _ rfl
        simp [nodeAt]

set_option maxRecDepth 100000 in
/-- A throwing `fs.mkdir` can leave directories behind: for `x/` followed by a
name of 300 letters under `/files` in `nestedFs`, the path resolves and does
not exist, `/files/x` is created, the long name is refused, and the handler
answers `MKDIR_FAILED` with `/files/x` in place. -/
theorem fsMkdir_stops_at_long_name :
    makeResolver "/".toList "/files".toList ("x/".toList ++ List.replicate 300 'a')
      = Resolved.ok ("/files/x/".toList ++ List.replicate 300 'a') ∧
    existsSync nestedFs ("/files/x/".toList ++ List.replicate 300 'a') = false ∧
    (mkdirHandler 0 "/".toList "/files".toList nestedFs
        ("x/".toList ++ List.replicate 300 'a')).1
      = Response.error 500 ErrorCode.MKDIR_FAILED ∧
    existsSync nestedFs "/files/x".toList = false ∧
    existsSync (mkdirHandler 0 "/".toList "/files".toList nestedFs
        ("x/".toList ++ List.replicate 300 'a')).2 "/files/x".toList = true := by
  refine ⟨by decide, by decide, by decide, by decide, by decide⟩

/-! ## The lister -/

theorem describeChild_name (fs : Fs) (fullPath relPath name : Str) :
    (describeChild fs fullPath relPath name).name = name := by
  unfold describeChild
  cases h : fsStat fs (join [fullPath, name]) <;> simp [h]

theorem describeChild_failed_stat (fs : Fs) (fullPath relPath name : Str)
    (h : fsStat fs (join [fullPath, name]) = none) :
    (describeChild fs fullPath relPath name).permissions = Permissions.EACCES ∧
    (describeChild fs fullPath relPath name).size = 0 ∧
    (describeChild fs fullPath relPath name).time = none := by
  unfold describeChild
  simp [h]

theorem readdir_nodup (fs : Fs) (path : Str) (entries : List Str)
    (h : readdir fs path = some entries) : entries.Nodup := by
  unfold readdir at h
  split at h
  · cases h
  · split at h
    · cases h
      exact List.nodup_dedup _
    · cases h

theorem compareChildren_total (cmp : Str → Str → Int)
    (htotal : ∀ a b, cmp a b ≤ 0 ∨ cmp b a ≤ 0) (a b : Child) :
    compareChildren cmp a b ≤ 0 ∨ compareChildren cmp b a ≤ 0 := by
  unfold compareChildren
  by_cases ha : a.type = FileType.dir <;> by_cases hb : b.type = FileType.dir <;>
    simp [ha, hb, htotal]

theorem compareChildren_trans (cmp : Str → Str → Int)
    (htrans : ∀ a b c, cmp a b ≤ 0 → cmp b c ≤ 0 → cmp a c ≤ 0) (a b c : Child)
    (hab : compareChildren cmp a b ≤ 0) (hbc : compareChildren cmp b c ≤ 0) :
    compareChildren cmp a c ≤ 0 := by
  unfold compareChildren at hab hbc ⊢
  by_cases ha : a.type = FileType.dir <;> by_cases hb : b.type = FileType.dir <;>
    by_cases hc : c.type = FileType.dir <;> simp [ha, hb, hc] at hab hbc ⊢ <;>
    exact htrans _ _ _ hab hbc

theorem compareChildren_names (cmp : Str → Str → Int) (a b : Child)
    (hab : compareChildren cmp a b ≤ 0) (hba : compareChildren cmp b a ≤ 0) :
    cmp a.name b.name ≤ 0 ∧ cmp b.name a.name ≤ 0 := by
  unfold compareChildren at hab hba
  by_cases ha : a.type = FileType.dir <;> by_cases hb : b.type = FileType.dir <;>
    simp [ha, hb] at hab hba <;> exact ⟨hab, hba⟩

/-- What the comparator's order says of a child `a` placed before a child `b`:
a directory is never after a non-directory, and within one group the names
ascend. -/
theorem compareChildren_order (cmp : Str → Str → Int) (a b : Child)
    (hab : compareChildren cmp a b ≤ 0) :
    ¬ (a.type ≠ FileType.dir ∧ b.type = FileType.dir) ∧
    ((a.type = FileType.dir ↔ b.type = FileType.dir) → cmp a.name b.name ≤ 0) := by
  unfold compareChildren at hab
  by_cases ha : a.type = FileType.dir <;> by_cases hb : b.type = FileType.dir <;>
    simp [ha, hb] at hab ⊢ <;> exact hab

theorem sortChildren_perm (cmp : Str → Str → Int) (l : List Child) :
    (sortChildren cmp l).Perm l :=
  List.perm_insertionSort _ l

theorem sortChildren_sorted (cmp : Str → Str → Int)
    (htotal : ∀ a b, cmp a b ≤ 0 ∨ cmp b a ≤ 0)
    (htrans : ∀ a b c, cmp a b ≤ 0 → cmp b c ≤ 0 → cmp a c ≤ 0) (l : List Child) :
    (sortChildren cmp l).Pairwise (fun a b => compareChildren cmp a b ≤ 0) := by
  haveI : IsTotal Child (fun a b => compareChildren cmp a b ≤ 0) :=
    ⟨compareChildren_total cmp htotal⟩
  haveI : IsTrans Child (fun a b => compareChildren cmp a b ≤ 0) :=
    ⟨compareChildren_trans cmp htrans⟩
  exact List.sorted_insertionSort (fun a b => compareChildren cmp a b ≤ 0) l

/-- A list of described children that is in the comparator's order and is a
rearrangement of the described entries is the sorted listing. -/
theorem listChildren_unique (cmp : Str → Str → Int)
    (htotal : ∀ a b, cmp a b ≤ 0 ∨ cmp b a ≤ 0)
    (htrans : ∀ a b c, cmp a b ≤ 0 → cmp b c ≤ 0 → cmp a c ≤ 0)
    (hanti : ∀ a b, cmp a b ≤ 0 → cmp b a ≤ 0 → a = b)
    (fs : Fs) (fullPath relPath : Str) (entries : List Str) (l : List Child)
    (hperm : l.Perm (entries.map (describeChild fs fullPath relPath)))
    (hsorted : l.Pairwise (fun a b => compareChildren cmp a b ≤ 0)) :
    listChildren cmp fs fullPath relPath entries = l := by
  unfold listChildren
  refine List.Perm.eq_of_sorted ?_ (sortChildren_sorted cmp htotal htrans _) hsorted
    ((sortChildren_perm cmp _).trans hperm.symm)
  intro a b ha hb hab hba
  have ha' : a ∈ entries.map (describeChild fs fullPath relPath) :=
    (sortChildren_perm cmp _).mem_iff.1 ha
  have hb' : b ∈ entries.map (describeChild fs fullPath relPath) := hperm.mem_iff.1 hb
  obtain ⟨n, _, rfl⟩ := List.mem_map.1 ha'
  obtain ⟨m, _, rfl⟩ := List.mem_map.1 hb'
  have hn := compareChildren_names cmp _ _ hab hba
  rw [describeChild_name, describeChild_name] at hn
  rw [hanti n m hn.1 hn.2]

theorem codeUnitCompare_total (a b : Str) :
    codeUnitCompare a b ≤ 0 ∨ codeUnitCompare b a ≤ 0 := by
  induction a generalizing b with
  | nil => cases b <;> simp [codeUnitCompare]
  | cons x xs ih =>
    cases b with
    | nil => simp [codeUnitCompare]
    | cons y ys =>
      simp only [codeUnitCompare]
      rcases lt_trichotomy x y with h | h | h
      · simp [h]
      · subst h; simpa using ih ys
      · right; simp [h]

theorem codeUnitCompare_antisymm (a b : Str)
    (hab : codeUnitCompare a b ≤ 0) (hba : codeUnitCompare b a ≤ 0) : a = b := by
  induction a generalizing b with
  | nil => cases b with
    | nil => rfl
    | cons y ys => simp [codeUnitCompare] at hba
  | cons x xs ih =>
    cases b with
    | nil => simp [codeUnitCompare] at hab
    | cons y ys =>
      simp only [codeUnitCompare] at hab hba
      rcases lt_trichotomy x y with h | h | h
      · simp [h, lt_asymm h] at hba
      · subst h
        simp only [lt_irrefl, if_false] at hab hba
        rw [ih ys hab hba]
      · simp [h, lt_asymm h] at hab

theorem codeUnitCompare_trans (a b c : Str)
    (hab : codeUnitCompare a b ≤ 0) (hbc : codeUnitCompare b c ≤ 0) :
    codeUnitCompare a c ≤ 0 := by
  induction a generalizing b c with
  | nil => cases c <;> simp [codeUnitCompare]
  | cons x xs ih =>
    cases b with
    | nil => simp [codeUnitCompare] at hab
    | cons y ys =>
      cases c with
      | nil => simp [codeUnitCompare] at hbc
      | cons z zs =>
        simp only [codeUnitCompare] at hab hbc ⊢
        have hxy : ¬ y < x := by
          intro h; simp [h, lt_asymm h] at hab
        have hyz : ¬ z < y := by
          intro h; simp [h, lt_asymm h] at hbc
        rcases lt_trichotomy x z with h | h | h
        · simp [h]
        · subst h
          have hxy' : x = y := le_antisymm (not_lt.1 hxy) (not_lt.1 hyz)
          subst hxy'
          simp only [lt_irrefl, if_false] at hab hbc ⊢
          exact ih ys zs hab hbc
        · exact absurd (lt_of_lt_of_le h (not_lt.1 hxy)) (not_lt.2 (not_lt.1 hyz))

/-! ## The resolver on relative paths without a backslash -/

theorem mem_of_mem_splitOn (l seg : Str) (h : seg ∈ l.splitOn '/') :
    ∀ c ∈ seg, c ∈ l := by
  induction l generalizing seg with
  | nil =>
    simp [List.splitOn] at h
    simp [h]
  | cons x l ih =>
    simp only [List.splitOn, List.splitOnP_cons] at ih h
    split at h
    · rcases List.mem_cons.1 h with h | h
      · simp [h]
      · intro c hc
        exact List.mem_cons_of_mem _ (ih _ h c hc)
    · cases hs : List.splitOnP (fun y => y == '/') l with
      | nil => exact absurd hs (List.splitOnP_ne_nil _ _)
      | cons y ys =>
        rw [hs] at h ih
        simp only [List.modifyHead, List.mem_cons] at h
        rcases h with h | h
        · subst h
          intro c hc
          rcases List.mem_cons.1 hc with e | e
          · exact e ▸ List.mem_cons_self _ _
          · exact List.mem_cons_of_mem _ (ih y (List.mem_cons_self _ _) c e)
        · intro c hc
          exact List.mem_cons_of_mem _ (ih _ (List.mem_cons_of_mem _ h) c hc)

/-- A property of `..` and of every segment read so far holds of every segment
kept. -/
theorem normalizeStep_forall (P : Str → Prop) (hdd : P ['.', '.']) (allow : Bool)
    (st : List Str) (seg : Str) (hst : ∀ s ∈ st, P s) (hseg : P seg) :
    ∀ s ∈ normalizeStep allow st seg, P s := by
  unfold normalizeStep
  split
  · exact hst
  · split
    · cases st with
      | nil =>
        cases allow <;> simp
        exact hdd
      | cons last rest =>
        simp only
        split
        · cases allow
          · simpa using hst
          · intro s hs
            rcases List.mem_cons.1 hs with e | e
            · exact e ▸ hdd
            · exact hst s e
        · intro s hs
          exact hst s (List.mem_cons_of_mem _ hs)
    · intro s hs
      rcases List.mem_cons.1 hs with e | e
      · exact e ▸ hseg
      · exact hst s e

theorem foldl_normalizeStep_forall (P : Str → Prop) (hdd : P ['.', '.']) (allow : Bool)
    (segs : List Str) (st : List Str) (hst : ∀ s ∈ st, P s) (hsegs : ∀ s ∈ segs, P s) :
    ∀ s ∈ segs.foldl (normalizeStep allow) st, P s := by
  induction segs generalizing st with
  | nil => simpa using hst
  | cons seg segs ih =>
    rw [List.foldl_cons]
    exact ih _ (normalizeStep_forall P hdd allow st seg hst
      (hsegs seg (List.mem_cons_self _ _))) (fun s hs => hsegs s (List.mem_cons_of_mem _ hs))

/-- The kept `..` segments are exactly the bottom of the stack. -/
theorem normalizeStep_leadingParents (st : List Str) (seg : Str)
    (h : ∃ (k : Nat) (plain : List Str),
      st = plain ++ List.replicate k ['.', '.'] ∧ ∀ s ∈ plain, s ≠ ['.', '.']) :
    ∃ (k : Nat) (plain : List Str),
      normalizeStep true st seg = plain ++ List.replicate k ['.', '.'] ∧
      ∀ s ∈ plain, s ≠ ['.', '.'] := by
  obtain ⟨k, plain, rfl, hp⟩ := h
  unfold normalizeStep
  split
  · exact ⟨k, plain, rfl, hp⟩
  · split
    · cases plain with
      | nil =>
        cases k with
        | zero => exact ⟨1, [], by simp, by simp⟩
        | succ k => exact ⟨k + 2, [], by simp [List.replicate_succ], by simp⟩
      | cons a rest =>
        have ha : a ≠ ['.', '.'] := hp a (List.mem_cons_self _ _)
        exact ⟨k, rest, by simp [ha], fun s hs => hp s (List.mem_cons_of_mem _ hs)⟩
    · rename_i hne
      refine ⟨k, seg :: plain, by simp, ?_⟩
      intro s hs
      rcases List.mem_cons.1 hs with e | e
      · exact e ▸ hne
      · exact hp s e

theorem relativeStack_leadingParents (p : Str) :
    ∃ (k : Nat) (plain : List Str),
      relativeStack p = plain ++ List.replicate k ['.', '.'] ∧
      ∀ s ∈ plain, s ≠ ['.', '.'] := by
  unfold relativeStack
  have key : ∀ (segs st : List Str),
      (∃ (k : Nat) (plain : List Str),
        st = plain ++ List.replicate k ['.', '.'] ∧ ∀ s ∈ plain, s ≠ ['.', '.']) →
      ∃ (k : Nat) (plain : List Str),
        segs.foldl (normalizeStep true) st = plain ++ List.replicate k ['.', '.'] ∧
        ∀ s ∈ plain, s ≠ ['.', '.'] := by
    intro segs
    induction segs with
    | nil => intro st h; exact h
    | cons seg segs ih =>
      intro st h
      exact ih _ (normalizeStep_leadingParents st seg h)
  exact key _ [] ⟨0, [], by simp, by simp⟩

theorem relativeStack_no_backslash (p : Str) (hp : '\\' ∉ p) :
    ∀ s ∈ relativeStack p, '\\' ∉ s :=
  foldl_normalizeStep_forall (fun s => '\\' ∉ s) (by decide) true _ []
    (by intro s hs; cases hs)
    (fun s hs hmem => hp (mem_of_mem_splitOn p s hs _ hmem))

/-- Nothing is stripped from a string that does not begin with `..` followed
by `/` or a backslash and is not `..` itself. -/
theorem stripLeadingParents_eq_self (s : Str)
    (h3 : ∀ (c0 c1 c2 : Char) (r : Str), s = c0 :: c1 :: c2 :: r →
      ¬ (c0 = '.' ∧ c1 = '.' ∧ (c2 = '/' ∨ c2 = '\\')))
    (h2 : s ≠ ['.', '.']) : stripLeadingParents s = s := by
  rcases s with _ | ⟨c0, _ | ⟨c1, _ | ⟨c2, r⟩⟩⟩
  · simp [stripLeadingParents]
  · simp [stripLeadingParents]
  · rw [stripLeadingParents]
    · rw [if_neg h2]
    · intro a b c r h; cases h
  · rw [stripLeadingParents, if_neg (h3 c0 c1 c2 r rfl)]

/-- A joined list of segments is its first segment, alone or followed by a
separator. -/
theorem intercalate_cons_shape (f : Str) (rest : List Str) (t : Str)
    (ht : t = [] ∨ t = ['/']) :
    ∃ u : Str, ['/'].intercalate (f :: rest) ++ t = f ++ u ∧
      (u = [] ∨ ∃ v : Str, u = '/' :: v) := by
  cases rest with
  | nil =>
    refine ⟨t, by simp [intercalate_singleton], ?_⟩
    rcases ht with h | h
    · exact Or.inl h
    · exact Or.inr ⟨[], h⟩
  | cons b l =>
    refine ⟨'/' :: (['/'].intercalate (b :: l) ++ t), ?_, Or.inr ⟨_, rfl⟩⟩
    rw [intercalate_cons_cons]
    simp

/-- Nothing is stripped from a joined list of segments whose first segment is
kept, is not `..` and has no backslash. -/
theorem stripLeadingParents_plain (f : Str) (rest : List Str) (t : Str)
    (ht : t = [] ∨ t = ['/']) (hk : KeptSegment f) (hdd : f ≠ ['.', '.'])
    (hb : '\\' ∉ f) :
    stripLeadingParents (['/'].intercalate (f :: rest) ++ t)
      = ['/'].intercalate (f :: rest) ++ t := by
  obtain ⟨u, hu, hshape⟩ := intercalate_cons_shape f rest t ht
  rw [hu]
  obtain ⟨hne, hdot, hslash⟩ := hk
  apply stripLeadingParents_eq_self
  · intro c0 c1 c2 r heq hc
    obtain ⟨h0, h1, h2⟩ := hc
    rcases f with _ | ⟨a, _ | ⟨b, _ | ⟨c, f'⟩⟩⟩
    · exact hne rfl
    · rcases hshape with hu0 | ⟨v, hv⟩
      · subst hu0; simp at heq
      · subst hv
        simp only [List.singleton_append, List.cons.injEq] at heq
        exact hdot (by rw [heq.1, h0])
    · simp only [List.cons_append, List.cons.injEq] at heq
      exact hdd (by rw [heq.1, heq.2.1, h0, h1])
    · simp only [List.cons_append, List.cons.injEq] at heq
      rcases h2 with h2 | h2
      · exact hslash (by rw [heq.2.2.1, h2]; simp)
      · exact hb (by rw [heq.2.2.1, h2]; simp)
  · intro heq
    rcases f with _ | ⟨a, _ | ⟨b, _ | ⟨c, f'⟩⟩⟩
    · exact hne rfl
    · rcases hshape with hu0 | ⟨v, hv⟩
      · subst hu0; simp at heq
      · subst hv
        simp at heq
    · simp only [List.cons_append, List.cons.injEq] at heq
      exact hdd (by rw [heq.1, heq.2.1])
    · simp at heq

/-- The leading `..` segments of a normalized path are stripped, the segments
after them are left. -/
theorem stripLeadingParents_parents (k : Nat) (f : Str) (rest : List Str) (t : Str)
    (ht : t = [] ∨ t = ['/']) (hk : KeptSegment f) (hdd : f ≠ ['.', '.'])
    (hb : '\\' ∉ f) :
    stripLeadingParents
        (['/'].intercalate (List.replicate k ['.', '.'] ++ f :: rest) ++ t)
      = ['/'].intercalate (f :: rest) ++ t := by
  induction k with
  | zero => simpa using stripLeadingParents_plain f rest t ht hk hdd hb
  | succ k ih =>
    cases hl : List.replicate k ['.', '.'] ++ f :: rest with
    | nil => simp at hl
    | cons b l =>
      rw [List.replicate_succ, List.cons_append, hl, intercalate_cons_cons]
      rw [hl] at ih
      simp only [List.cons_append, List.nil_append]
      rw [stripLeadingParents, if_pos (by simp)]
      exact ih

/-- A normalized path made of `..` segments only is stripped whole. -/
theorem stripLeadingParents_only_parents (k : Nat) (t : Str) (ht : t = [] ∨ t = ['/']) :
    stripLeadingParents (['/'].intercalate (List.replicate (k + 1) ['.', '.']) ++ t)
      = [] := by
  induction k with
  | zero =>
    rcases ht with h | h <;> subst h <;> decide
  | succ k ih =>
    rw [List.replicate_succ, List.replicate_succ, intercalate_cons_cons]
    rw [List.replicate_succ] at ih
    simp only [List.cons_append, List.nil_append]
    rw [stripLeadingParents, if_pos (by simp)]
    exact ih

theorem canonical_root_eq (cwd root : Str) (hroot : isAbsolute root = true)
    (hcanon : resolve cwd [root] = root) :
    root = '/' :: ['/'].intercalate (normalizeSegments root false) := by
  have h := resolve_absolute_single cwd root hroot
  rw [hcanon] at h
  rw [normalizeString, normalizeSegments_append_slash] at h
  exact h

theorem resolve_root_empty (cwd root : Str) :
    resolve cwd [root, []] = resolve cwd [root] := by
  simp [resolve, resolveLoop]

/-- The function `path.resolve(root, s)` when the segments of `s` are pushed as
the list `q` onto whatever is already kept. -/
theorem resolve_root_segments (cwd root s : Str) (q : List Str)
    (hroot : isAbsolute root = true) (hs : s ≠ []) (hrel : isAbsolute s = false)
    (hfold : ∀ st : List Str,
      (s.splitOn '/').foldl (normalizeStep false) st = q.reverse ++ st) :
    resolve cwd [root, s]
      = '/' :: ['/'].intercalate (normalizeSegments root false ++ q) := by
  rw [resolve_absolute_relative cwd root s hroot hs hrel]
  unfold normalizeString
  congr 2
  unfold normalizeSegments
  rw [splitOn_slash_append, splitOn_slash_append, List.foldl_append, List.foldl_append,
    hfold]
  simp [List.splitOn, normalizeStep]

theorem resolve_root_plain (cwd root : Str) (hroot : isAbsolute root = true)
    (f : Str) (rest : List Str) (t : Str) (ht : t = [] ∨ t = ['/'])
    (hall : ∀ s ∈ f :: rest, KeptSegment s ∧ s ≠ ['.', '.']) :
    resolve cwd [root, ['/'].intercalate (f :: rest) ++ t]
      = '/' :: ['/'].intercalate (normalizeSegments root false ++ f :: rest) := by
  have hf := (hall f (List.mem_cons_self _ _)).1
  have hne : ['/'].intercalate (f :: rest) ≠ [] := intercalate_ne_nil f rest hf.1
  apply resolve_root_segments cwd root _ (f :: rest) hroot
  · intro e
    exact hne (List.append_eq_nil.1 e).1
  · have hhead : (['/'].intercalate (f :: rest) ++ t).head? = f.head? := by
      rw [← head?_intercalate f rest hf.1]
      cases hq : ['/'].intercalate (f :: rest) with
      | nil => exact absurd hq hne
      | cons c q => simp
    simp only [isAbsolute, hhead]
    have : f.head? ≠ some '/' := fun e => hf.2.2 (List.mem_of_mem_head? e)
    simpa using this
  · intro st
    have hsplit : (['/'].intercalate (f :: rest)).splitOn '/' = f :: rest :=
      List.splitOn_intercalate _ '/' (fun l hl => (hall l hl).1.2.2) (by simp)
    have hrev : (f :: rest).reverse.reverse = f :: rest := List.reverse_reverse _
    rcases ht with h | h
    · subst h
      rw [List.append_nil, hsplit, foldl_normalizeStep_push false _ st hall]
    · subst h
      rw [splitOn_slash_append, hsplit, List.foldl_append,
        foldl_normalizeStep_push false _ st hall]
      simp [List.splitOn, normalizeStep]

/-- A path made of the root's segments followed by further segments is inside
the root. -/
theorem insideRoot_segments (root : Str) (rs q : List Str)
    (hroot : root = '/' :: ['/'].intercalate rs) :
    insideRoot root ('/' :: ['/'].intercalate (rs ++ q)) = true := by
  unfold insideRoot
  by_cases hq : q = []
  · subst hq
    simp [← hroot]
  · have hpre : root <+: '/' :: ['/'].intercalate (rs ++ q) := by
      obtain ⟨u, hu⟩ := intercalate_prefix_append rs q
      exact ⟨u, by rw [hroot, ← hu]; simp⟩
    by_cases hlast : (root.getLast? == some '/') = true
    · simp only [hlast, if_true]
      rw [Bool.or_eq_true]
      right
      rw [List.isPrefixOf_iff_prefix]
      exact hpre
    · simp only [hlast]
      rw [Bool.or_eq_true]
      right
      rw [List.isPrefixOf_iff_prefix]
      by_cases hrs : rs = []
      · subst hrs
        exfalso
        apply hlast
        rw [hroot]
        decide
      · rw [intercalate_append rs q hrs hq]
        exact ⟨['/'].intercalate q, by rw [hroot]; simp⟩

/-- The resolver accepts when `path.resolve` yields the root's segments
followed by further segments, and the accepted path is inside the root. -/
theorem makeResolver_accepts (cwd root p : Str) (q : List Str)
    (hroot : isAbsolute root = true) (hcanon : resolve cwd [root] = root)
    (hfull : resolve cwd [root, sanitizePath p]
      = '/' :: ['/'].intercalate (normalizeSegments root false ++ q)) :
    makeResolver cwd root p
        = Resolved.ok ('/' :: ['/'].intercalate (normalizeSegments root false ++ q)) ∧
    insideRoot root ('/' :: ['/'].intercalate (normalizeSegments root false ++ q))
        = true := by
  have hrootEq := canonical_root_eq cwd root hroot hcanon
  refine ⟨?_, insideRoot_segments root _ q hrootEq⟩
  unfold makeResolver
  simp only [hfull]
  have hpre : root.isPrefixOf ('/' :: ['/'].intercalate
      (normalizeSegments root false ++ q)) = true := by
    rw [List.isPrefixOf_iff_prefix]
    conv_lhs => rw [hrootEq]
    obtain ⟨u, hu⟩ := intercalate_prefix_append (normalizeSegments root false) q
    exact ⟨u, by rw [← hu]; simp⟩
  simp [hpre]

/-- The resolver on a relative path without a backslash, against a canonical
absolute root: the leading `..` segments of the normalized path are dropped,
the remaining segments are appended to the root's, and the path is accepted. -/
theorem makeResolver_no_backslash (cwd root p : Str)
    (hroot : isAbsolute root = true) (hcanon : resolve cwd [root] = root)
    (hp : isAbsolute p = false) (hb : '\\' ∉ p) :
    makeResolver cwd root p
        = Resolved.ok ('/' :: ['/'].intercalate (normalizeSegments root false ++
            (normalizeSegments p true).filter (fun s => s ≠ ['.', '.']))) ∧
    insideRoot root ('/' :: ['/'].intercalate (normalizeSegments root false ++
            (normalizeSegments p true).filter (fun s => s ≠ ['.', '.']))) = true := by
  obtain ⟨k, plain, hst, hplain⟩ := relativeStack_leadingParents p
  have hns : normalizeSegments p true
      = List.replicate k ['.', '.'] ++ plain.reverse := by
    have : normalizeSegments p true = (relativeStack p).reverse := rfl
    rw [this, hst]
    simp
  have hfilter : (normalizeSegments p true).filter (fun s => s ≠ ['.', '.'])
      = plain.reverse := by
    rw [hns, List.filter_append]
    have h1 : (List.replicate k ['.', '.']).filter (fun s => s ≠ ['.', '.']) = [] := by
      rw [List.filter_eq_nil_iff]
      intro s hs
      simp [List.eq_of_mem_replicate hs]
    have h2 : plain.reverse.filter (fun s => s ≠ ['.', '.']) = plain.reverse := by
      rw [List.filter_eq_self]
      intro s hs
      simpa using hplain s (by simpa using hs)
    rw [h1, h2, List.nil_append]
  rw [hfilter]
  apply makeResolver_accepts cwd root p plain.reverse hroot hcanon
  unfold sanitizePath
  rcases normalize_relative p hp with ⟨h0, h | h⟩ | ⟨hne, h⟩
  · have hpl : plain = [] := by
      rw [h0] at hst
      exact (List.append_eq_nil.1 hst.symm).1
    rw [h, hpl]
    exact resolve_root_segments cwd root ['.'] [] hroot (by simp) (by decide)
      (fun st => rfl)
  · have hpl : plain = [] := by
      rw [h0] at hst
      exact (List.append_eq_nil.1 hst.symm).1
    rw [h, hpl]
    exact resolve_root_segments cwd root ['.', '/'] [] hroot (by simp) (by decide)
      (fun st => rfl)
  · have hshape : ∃ t : Str, (t = [] ∨ t = ['/']) ∧
        normalize p = ['/'].intercalate (relativeStack p).reverse ++ t := by
      rcases h with h | h
      · exact ⟨[], Or.inl rfl, by simpa using h⟩
      · exact ⟨['/'], Or.inr rfl, h⟩
    obtain ⟨t, ht, hnorm⟩ := hshape
    have hrev : (relativeStack p).reverse
        = List.replicate k ['.', '.'] ++ plain.reverse := by
      rw [hst]; simp
    rw [hnorm, hrev]
    cases hpl : plain.reverse with
    | nil =>
      have hk : k ≠ 0 := by
        intro hk0
        apply hne
        rw [hst, hk0]
        simpa using hpl
      obtain ⟨j, rfl⟩ := Nat.exists_eq_succ_of_ne_zero hk
      rw [List.append_nil, stripLeadingParents_only_parents j t ht, resolve_root_empty,
        hcanon, List.append_nil]
      exact canonical_root_eq cwd root hroot hcanon
    | cons f rest =>
      have hall : ∀ s ∈ f :: rest, KeptSegment s ∧ s ≠ ['.', '.'] := by
        intro s hs
        have hs' : s ∈ plain := by
          have : s ∈ plain.reverse := by rw [hpl]; exact hs
          simpa using this
        exact ⟨relativeStack_kept p s (by rw [hst]; exact List.mem_append_left _ hs'),
          hplain s hs'⟩
      have hfb : '\\' ∉ f := by
        have hf : f ∈ plain := by
          have : f ∈ plain.reverse := by rw [hpl]; exact List.mem_cons_self _ _
          simpa using this
        exact relativeStack_no_backslash p hb f
          (by rw [hst]; exact List.mem_append_left _ hf)
      have hf := hall f (List.mem_cons_self _ _)
      rw [stripLeadingParents_parents k f rest t ht hf.1 hf.2 hfb]
      exact resolve_root_plain cwd root hroot f rest t ht hall

/-! ## The resolver on relative paths whose sanitized form is relative -/

/-- Segments other than `..` are skipped or pushed, whatever is already kept. -/
theorem foldl_normalizeStep_no_parent (allow : Bool) (segs st : List Str)
    (h : ∀ s ∈ segs, s ≠ ['.', '.']) :
    segs.foldl (normalizeStep allow) st = segs.foldl (normalizeStep allow) [] ++ st := by
  induction segs generalizing st with
  | nil => rfl
  | cons seg segs ih =>
    have hseg : seg ≠ ['.', '.'] := h seg (List.mem_cons_self _ _)
    have hstep : ∀ base : List Str,
        normalizeStep allow base seg = normalizeStep allow [] seg ++ base := by
      intro base
      unfold normalizeStep
      by_cases hskip : seg = [] ∨ seg = ['.']
      · simp [hskip]
      · simp [hskip, hseg]
    have hrest : ∀ s ∈ segs, s ≠ ['.', '.'] := fun s hs => h s (List.mem_cons_of_mem _ hs)
    rw [List.foldl_cons, List.foldl_cons, ih _ hrest, ih (normalizeStep allow [] seg) hrest,
      hstep st, List.append_assoc]

/-- A string is its first segment, alone or followed by a separator. -/
theorem splitOn_head_shape (s g : Str) (tail : List Str)
    (h : s.splitOn '/' = g :: tail) : s = g ∨ ∃ v : Str, s = g ++ '/' :: v := by
  have hs := List.intercalate_splitOn s '/'
  rw [h] at hs
  cases tail with
  | nil =>
    left
    rw [intercalate_singleton] at hs
    exact hs.symm
  | cons b l =>
    right
    rw [intercalate_cons_cons] at hs
    exact ⟨_, hs.symm⟩

/-- When the `..` segments of a string are its leading segments and the first
segment is not `..`, no segment is `..`. -/
theorem no_parent_of_leading (s : Str)
    (h : (s.splitOn '/').Pairwise (fun a b => b = ['.', '.'] → a = ['.', '.']))
    (hhead : ∀ (g : Str) (tail : List Str), s.splitOn '/' = g :: tail → g ≠ ['.', '.']) :
    ∀ seg ∈ s.splitOn '/', seg ≠ ['.', '.'] := by
  cases hs : s.splitOn '/' with
  | nil => intro seg hseg; cases hseg
  | cons g tail =>
    rw [hs] at h
    have hg := hhead g tail hs
    intro seg hseg
    rcases List.mem_cons.1 hseg with e | e
    · exact e ▸ hg
    · intro hdd
      exact hg ((List.pairwise_cons.1 h).1 seg e hdd)

/-- After `sanitizePath`'s replacement no segment is `..`, provided the `..`
segments of the string were its leading segments. -/
theorem stripLeadingParents_no_parent_segment (s : Str)
    (h : (s.splitOn '/').Pairwise (fun a b => b = ['.', '.'] → a = ['.', '.'])) :
    ∀ seg ∈ (stripLeadingParents s).splitOn '/', seg ≠ ['.', '.'] := by
  induction s using stripLeadingParents.induct with
  | case1 c0 c1 c2 rest hc ih =>
    rw [stripLeadingParents, if_pos hc]
    apply ih
    obtain ⟨rfl, rfl, h2⟩ := hc
    rcases h2 with rfl | rfl
    · have hsplit : ('.' :: '.' :: '/' :: rest).splitOn '/'
          = ['.', '.'] :: rest.splitOn '/' := by
        simp [List.splitOn, List.modifyHead]
      rw [hsplit] at h
      exact (List.pairwise_cons.1 h).2
    · cases hr : rest.splitOn '/' with
      | nil => exact absurd hr (List.splitOnP_ne_nil _ _)
      | cons g tail =>
        have hsplit : ('.' :: '.' :: '\\' :: rest).splitOn '/'
            = ('.' :: '.' :: '\\' :: g) :: tail := by
          simp only [List.splitOn] at hr ⊢
          simp [hr, List.modifyHead]
        rw [hsplit] at h
        obtain ⟨h1, h2⟩ := List.pairwise_cons.1 h
        refine List.pairwise_cons.2 ⟨?_, h2⟩
        intro b hb hbd
        exact absurd (h1 b hb hbd) (by simp)
  | case2 c0 c1 c2 rest hc =>
    rw [stripLeadingParents, if_neg hc]
    apply no_parent_of_leading _ h
    intro g tail hs hg
    subst hg
    rcases splitOn_head_shape _ _ _ hs with e | ⟨v, e⟩
    · simp at e
    · simp only [List.cons_append, List.nil_append, List.cons.injEq] at e
      exact hc ⟨e.1, e.2.1, Or.inl e.2.2.1⟩
  | case3 _ => simp [stripLeadingParents, List.splitOn]
  | case4 s h1 h2 =>
    have hstrip : stripLeadingParents s = s := by
      rw [stripLeadingParents]
      · rw [if_neg h2]
      · exact h1
    rw [hstrip]
    apply no_parent_of_leading _ h
    intro g tail hs hg
    subst hg
    rcases splitOn_head_shape _ _ _ hs with e | ⟨v, e⟩
    · exact h2 e
    · exact h1 '.' '.' '/' v (by simpa using e)

/-- In a list made of `..` segments followed by segments that are not `..`,
every `..` has only `..` before it. -/
theorem pairwise_leading_parents (k : Nat) (q : List Str) (hq : ∀ s ∈ q, s ≠ ['.', '.']) :
    (List.replicate k ['.', '.'] ++ q).Pairwise
      (fun a b => b = ['.', '.'] → a = ['.', '.']) := by
  rw [List.pairwise_append]
  refine ⟨?_, ?_, ?_⟩
  · exact List.Pairwise.imp_of_mem (R := fun _ _ => True)
      (fun {a b} ha _ _ _ => List.eq_of_mem_replicate ha) (by simp [List.pairwise_iff_forall_sublist])
  · exact List.Pairwise.imp_of_mem (R := fun _ _ => True)
      (fun {a b} _ hb _ hdd => absurd hdd (hq b hb)) (by simp [List.pairwise_iff_forall_sublist])
  · intro a ha b hb hdd
    exact absurd hdd (hq b hb)

/-- The `..` segments of a normalized relative path are its leading segments. -/
theorem normalize_relative_leading (p : Str) (hp : isAbsolute p = false) :
    ((normalize p).splitOn '/').Pairwise
      (fun a b => b = ['.', '.'] → a = ['.', '.']) := by
  rcases normalize_relative p hp with ⟨_, h | h⟩ | ⟨hne, h⟩
  · rw [h]; decide
  · rw [h]; decide
  · obtain ⟨k, plain, hst, hplain⟩ := relativeStack_leadingParents p
    have hrev : (relativeStack p).reverse
        = List.replicate k ['.', '.'] ++ plain.reverse := by
      rw [hst]; simp
    have hne' : (relativeStack p).reverse ≠ [] := by simpa using hne
    have hsplit : (['/'].intercalate (relativeStack p).reverse).splitOn '/'
        = (relativeStack p).reverse :=
      List.splitOn_intercalate _ '/'
        (fun l hl => (relativeStack_kept p l (by simpa using hl)).2.2) hne'
    have hq : ∀ s ∈ plain.reverse, s ≠ ['.', '.'] :=
      fun s hs => hplain s (by simpa using hs)
    rcases h with h | h
    · rw [h, hsplit, hrev]
      exact pairwise_leading_parents k _ hq
    · rw [h, splitOn_slash_append, hsplit, hrev, List.append_assoc]
      apply pairwise_leading_parents k
      intro s hs
      rcases List.mem_append.1 hs with e | e
      · exact hq s e
      · simp only [List.splitOn, List.splitOnP_nil, List.mem_singleton] at e
        rw [e]; simp

/-- No segment of a sanitized relative path is `..`. -/
theorem sanitizePath_no_parent_segment (p : Str) (hp : isAbsolute p = false) :
    ∀ seg ∈ (sanitizePath p).splitOn '/', seg ≠ ['.', '.'] :=
  stripLeadingParents_no_parent_segment (normalize p) (normalize_relative_leading p hp)

/-- The resolver on a relative path whose sanitized form is relative, against
a canonical absolute root: the path is accepted, it is made of the root's
segments followed by the segments of the sanitized path, and it is inside the
root. -/
theorem makeResolver_sanitized_relative (cwd root p : Str)
    (hroot : isAbsolute root = true) (hcanon : resolve cwd [root] = root)
    (hp : isAbsolute p = false) (hsan : isAbsolute (sanitizePath p) = false) :
    makeResolver cwd root p
        = Resolved.ok ('/' :: ['/'].intercalate (normalizeSegments root false ++
            normalizeSegments (sanitizePath p) false)) ∧
    insideRoot root ('/' :: ['/'].intercalate (normalizeSegments root false ++
            normalizeSegments (sanitizePath p) false)) = true := by
  apply makeResolver_accepts cwd root p _ hroot hcanon
  by_cases hR : sanitizePath p = []
  · rw [hR, resolve_root_empty, hcanon]
    have h0 : normalizeSegments [] false = [] := by decide
    rw [h0, List.append_nil]
    exact canonical_root_eq cwd root hroot hcanon
  · apply resolve_root_segments cwd root (sanitizePath p) _ hroot hR hsan
    intro st
    rw [foldl_normalizeStep_no_parent false _ st (sanitizePath_no_parent_segment p hp)]
    simp [normalizeSegments]

/-! ## The classifier -/

theorem fsStat_isSymbolicLink (fs : Fs) (path : Str) (stat : Stat)
    (h : fsStat fs path = some stat) : stat.isSymbolicLink = false := by
  unfold fsStat at h
  split at h
  · cases h
  · split at h
    · cases h
    · split at h
      · cases h
      · cases h
        rfl

/-- No extension stands in two lists of `fileTypeMap`. -/
theorem fileTypeMap_disjoint :
    ∀ e1 ∈ fileTypeMap, ∀ e2 ∈ fileTypeMap, ∀ x ∈ e1.2, x ∈ e2.2 → e1.1 = e2.1 := by
  decide

theorem fileTypeMap_no_entry_kind :
    ∀ e ∈ fileTypeMap, e.1 ≠ FileType.symlink ∧ e.1 ≠ FileType.dir := by
  decide

/-- The function `getFileType` on a regular file: the first category of
`fileTypeMap` whose list holds the lowercased extension. -/
theorem getFileType_regular (fs : Fs) (fullPath : Str) (stat : Stat)
    (hstat : fsStat fs fullPath = some stat) (hdir : stat.isDirectory = false)
    (hlink : stat.isSymbolicLink = false) :
    getFileType fs fullPath =
      match fileTypeMap.find?
        (fun e => e.2.contains (toLowerCase ((extname fullPath).drop 1))) with
      | some e => e.1
      | none => FileType.other := by
  simp [getFileType, hstat, hdir, hlink]

/-! ## Listings of one filesystem in two enumeration orders -/

theorem lookupNode_congr (fs fs' : Fs) (h : ∀ key, nodeAt fs' key = nodeAt fs key)
    (path : Str) : lookupNode fs' path = lookupNode fs path :=
  h _

theorem fsStat_congr (fs fs' : Fs) (h : ∀ key, nodeAt fs' key = nodeAt fs key)
    (path : Str) : fsStat fs' path = fsStat fs path := by
  unfold fsStat
  rw [lookupNode_congr fs fs' h]

theorem getFileType_congr (fs fs' : Fs) (h : ∀ key, nodeAt fs' key = nodeAt fs key)
    (path : Str) : getFileType fs' path = getFileType fs path := by
  unfold getFileType
  rw [fsStat_congr fs fs' h]

theorem checkPermissions_congr (fs fs' : Fs) (h : ∀ key, nodeAt fs' key = nodeAt fs key)
    (path : Str) : checkPermissions fs' path = checkPermissions fs path := by
  unfold checkPermissions accessRead accessWrite
  rw [fsStat_congr fs fs' h, lookupNode_congr fs fs' h]

theorem describeChild_congr (fs fs' : Fs) (h : ∀ key, nodeAt fs' key = nodeAt fs key)
    (fullPath relPath name : Str) :
    describeChild fs' fullPath relPath name = describeChild fs fullPath relPath name := by
  unfold describeChild
  simp only [fsStat_congr fs fs' h, getFileType_congr fs fs' h,
    checkPermissions_congr fs fs' h]

/-- A key stands in the table exactly when a node is stored under it. -/
theorem mem_keys_iff (fs : Fs) (k : Str) :
    k ∈ fs.map (fun e => e.1) ↔ (nodeAt fs k).isSome = true := by
  unfold nodeAt
  rw [Option.isSome_map', List.find?_isSome]
  constructor
  · intro hk
    obtain ⟨e, he, hek⟩ := List.mem_map.1 hk
    exact ⟨e, he, by simpa using hek⟩
  · rintro ⟨e, he, hek⟩
    exact List.mem_map.2 ⟨e, he, by simpa using hek⟩

/-- Two tables that store the same node under every key enumerate the same
names in a directory, in possibly different orders. -/
theorem readdir_congr (fs fs' : Fs) (h : ∀ key, nodeAt fs' key = nodeAt fs key)
    (path : Str) (entries : List Str) (hread : readdir fs path = some entries) :
    ∃ entries' : List Str, readdir fs' path = some entries' ∧ entries'.Perm entries := by
  unfold readdir at hread ⊢
  rw [lookupNode_congr fs fs' h]
  cases hn : lookupNode fs path with
  | none => simp [hn] at hread
  | some n =>
    simp only [hn] at hread ⊢
    split at hread
    · rename_i hdir
      rw [if_pos hdir]
      cases hread
      refine ⟨_, rfl, ?_⟩
      apply (List.perm_ext_iff_of_nodup (List.nodup_dedup _) (List.nodup_dedup _)).2
      intro name
      simp only [List.mem_dedup, List.mem_map, List.mem_filter]
      constructor
      · rintro ⟨k, ⟨hk, hP⟩, hb⟩
        refine ⟨k, ⟨?_, hP⟩, hb⟩
        have := (mem_keys_iff fs' k).1 (List.mem_map.2 hk)
        rw [h k] at this
        exact List.mem_map.1 ((mem_keys_iff fs k).2 this)
      · rintro ⟨k, ⟨hk, hP⟩, hb⟩
        refine ⟨k, ⟨?_, hP⟩, hb⟩
        have := (mem_keys_iff fs k).1 (List.mem_map.2 hk)
        rw [← h k] at this
        exact List.mem_map.1 ((mem_keys_iff fs' k).2 this)
    · cases hread

/-- The list handler on a path that resolves to a directory that can be
enumerated. -/
theorem listHandler_directory (cmp : Str → Str → Int) (cwd baseDir : Str) (fs : Fs)
    (param fullPath : Str) (stat : Stat) (entries : List Str)
    (hres : makeResolver cwd baseDir (if param = [] then ['.', '/'] else param)
      = Resolved.ok fullPath)
    (hstat : fsStat fs fullPath = some stat) (hdir : stat.isDirectory = true)
    (hread : readdir fs fullPath = some entries) :
    listHandler cmp cwd baseDir fs param
      = Response.ok (Listing.dir (basename fullPath)
          (if param = [] then ['.', '/'] else param)
          (dirname (if param = [] then ['.', '/'] else param))
          (listChildren cmp fs fullPath (if param = [] then ['.', '/'] else param) entries)
          { create := stat.birthtime, access := stat.atime, modified := stat.mtime }) := by
  simp [listHandler, hres, existsSync, hstat, hdir, hread]

/-- A list of described children that is in the comparator's order and is a
rearrangement of the described entries is the sorted listing, when no two
entries are placed before each other by the comparator. -/
theorem listChildren_unique_on (cmp : Str → Str → Int)
    (htotal : ∀ a b, cmp a b ≤ 0 ∨ cmp b a ≤ 0)
    (htrans : ∀ a b c, cmp a b ≤ 0 → cmp b c ≤ 0 → cmp a c ≤ 0)
    (fs : Fs) (fullPath relPath : Str) (entries : List Str) (l : List Child)
    (hanti : ∀ n ∈ entries, ∀ m ∈ entries,
      compareChildren cmp (describeChild fs fullPath relPath n)
        (describeChild fs fullPath relPath m) ≤ 0 →
      compareChildren cmp (describeChild fs fullPath relPath m)
        (describeChild fs fullPath relPath n) ≤ 0 → n = m)
    (hperm : l.Perm (entries.map (describeChild fs fullPath relPath)))
    (hsorted : l.Pairwise (fun a b => compareChildren cmp a b ≤ 0)) :
    listChildren cmp fs fullPath relPath entries = l := by
  unfold listChildren
  refine List.Perm.eq_of_sorted ?_ (sortChildren_sorted cmp htotal htrans _) hsorted
    ((sortChildren_perm cmp _).trans hperm.symm)
  intro a b ha hb hab hba
  have ha' : a ∈ entries.map (describeChild fs fullPath relPath) :=
    (sortChildren_perm cmp _).mem_iff.1 ha
  have hb' : b ∈ entries.map (describeChild fs fullPath relPath) := hperm.mem_iff.1 hb
  obtain ⟨n, hn, rfl⟩ := List.mem_map.1 ha'
  obtain ⟨m, hm, rfl⟩ := List.mem_map.1 hb'
  rw [hanti n hn m hm hab hba]

/-- When no two names of a directory compare equal, the listing is the same
for every table that stores the same nodes, whatever its enumeration order. -/
theorem listHandler_congr (cmp : Str → Str → Int)
    (htotal : ∀ a b, cmp a b ≤ 0 ∨ cmp b a ≤ 0)
    (htrans : ∀ a b c, cmp a b ≤ 0 → cmp b c ≤ 0 → cmp a c ≤ 0)
    (cwd baseDir : Str) (fs fs' : Fs)
    (param fullPath : Str) (stat : Stat) (entries : List Str)
    (hres : makeResolver cwd baseDir (if param = [] then ['.', '/'] else param)
      = Resolved.ok fullPath)
    (hstat : fsStat fs fullPath = some stat) (hdir : stat.isDirectory = true)
    (hread : readdir fs fullPath = some entries)
    (hanti : ∀ a ∈ entries, ∀ b ∈ entries, cmp a b ≤ 0 → cmp b a ≤ 0 → a = b)
    (h : ∀ key, nodeAt fs' key = nodeAt fs key) :
    listHandler cmp cwd baseDir fs' param = listHandler cmp cwd baseDir fs param := by
  obtain ⟨entries', hread', hperm⟩ := readdir_congr fs fs' h fullPath entries hread
  rw [listHandler_directory cmp cwd baseDir fs param fullPath stat entries hres hstat hdir
      hread,
    listHandler_directory cmp cwd baseDir fs' param fullPath stat entries' hres
      (by rw [fsStat_congr fs fs' h]; exact hstat) hdir hread']
  have hdesc : describeChild fs' fullPath (if param = [] then ['.', '/'] else param)
      = describeChild fs fullPath (if param = [] then ['.', '/'] else param) :=
    funext (fun name => describeChild_congr fs fs' h fullPath _ name)
  have hchildren :
      listChildren cmp fs fullPath (if param = [] then ['.', '/'] else param) entries
        = listChildren cmp fs' fullPath (if param = [] then ['.', '/'] else param)
            entries' := by
    apply listChildren_unique_on cmp htotal htrans
    · intro n hn m hm hnm hmn
      have hnames := compareChildren_names cmp _ _ hnm hmn
      rw [describeChild_name, describeChild_name] at hnames
      exact hanti n hn m hm hnames.1 hnames.2
    · unfold listChildren
      rw [hdesc]
      exact (sortChildren_perm cmp _).trans (hperm.map _)
    · exact sortChildren_sorted cmp htotal htrans _
  rw [hchildren]

theorem canonicalCompare_total (a b : Str) :
    canonicalCompare a b ≤ 0 ∨ canonicalCompare b a ≤ 0 :=
  codeUnitCompare_total _ _

theorem canonicalCompare_trans (a b c : Str)
    (hab : canonicalCompare a b ≤ 0) (hbc : canonicalCompare b c ≤ 0) :
    canonicalCompare a c ≤ 0 :=
  codeUnitCompare_trans _ _ _ hab hbc

/-- A reordering of a table with distinct keys stores the same node under every
key. -/
theorem nodeAt_perm (fs fs' : Fs) (hperm : fs.Perm fs')
    (hnodup : (fs.map (fun e => e.1)).Nodup) (key : Str) :
    nodeAt fs' key = nodeAt fs key := by
  unfold nodeAt
  congr 1
  induction hperm with
  | nil => rfl
  | cons x _ ih =>
    rw [List.map_cons, List.nodup_cons] at hnodup
    simp only [List.find?_cons]
    split
    · rfl
    · exact ih hnodup.2
  | swap x y l =>
    simp only [List.map_cons, List.nodup_cons, List.mem_cons, not_or] at hnodup
    simp only [List.find?_cons]
    by_cases hx : x.1 = key <;> by_cases hy : y.1 = key
    · exact absurd (hy.trans hx.symm) hnodup.1.1
    · simp [hx, hy]
    · simp [hx, hy]
    · simp [hx, hy]
  | trans h1 _ ih1 ih2 =>
    rw [ih2 ((h1.map _).nodup_iff.1 hnodup), ih1 hnodup]

/-! ## The claims -/

/-- C1: the relative path `..\/files2/secret` is accepted against the root
`/files` with the absolute path `/files2/secret`, which is neither the root nor
under it at a separator boundary: the containment claimed for every relative
path fails here. -/
theorem C1_relative_path_accepted_outside_root (cwd : Str) :
    isAbsolute "..\\/files2/secret".toList = false ∧
    makeResolver cwd "/files".toList "..\\/files2/secret".toList
      = Resolved.ok "/files2/secret".toList ∧
    insideRoot "/files".toList "/files2/secret".toList = false := by
  refine ⟨by decide, ?_, by decide⟩
  rfl

/-- C2: the absolute input `/files2/secret` is accepted against the root
`/files` although the final path is a sibling of the root that only shares its
prefix: the rejection the claim requires does not happen. -/
theorem C2_sibling_sharing_prefix_accepted (cwd : Str) :
    makeResolver cwd "/files".toList "/files2/secret".toList
      = Resolved.ok "/files2/secret".toList ∧
    insideRoot "/files".toList "/files2/secret".toList = false := by
  refine ⟨?_, by decide⟩
  rfl

/-- C3, as stated, fails: against the root `/files` the path
`a/../../etc/passwd` is not rejected with `EPATHINJECTION`. -/
theorem C3_traversal_not_rejected :
    makeResolver "/".toList "/files".toList "a/../../etc/passwd".toList
      ≠ Resolved.error ErrorCode.EPATHINJECTION := by
  decide

/-- C3, amended: against the root `/files` the path `a/../../etc/passwd` is
normalized to `../etc/passwd`, loses its leading `..` in `sanitizePath` and is
accepted as `/files/etc/passwd`, a path inside the root. -/
theorem C3_traversal_remapped_inside_root (cwd : Str) :
    normalize "a/../../etc/passwd".toList = "../etc/passwd".toList ∧
    sanitizePath "a/../../etc/passwd".toList = "etc/passwd".toList ∧
    makeResolver cwd "/files".toList "a/../../etc/passwd".toList
      = Resolved.ok "/files/etc/passwd".toList ∧
    insideRoot "/files".toList "/files/etc/passwd".toList = true := by
  refine ⟨by decide, by decide, ?_, by decide⟩
  rfl

/-- C4: with the root `/files` holding `a/b.txt`, the rename request with path
`a/b.txt` and name `../../x` succeeds; the destination handed to `fs.rename`
is `/x`, whose parent directory is not the source's and which is outside the
root, and afterwards the entry is at `/x` and no longer at `/files/a/b.txt`:
the name field is not treated as a bare name. -/
theorem C4_rename_name_escapes_parent :
    renameDestination "/files/a/b.txt".toList "../../x".toList = "/x".toList ∧
    dirname "/x".toList ≠ dirname "/files/a/b.txt".toList ∧
    insideRoot "/files".toList "/x".toList = false ∧
    (renameHandler "/".toList "/files".toList nestedFs "a/b.txt".toList "../../x".toList).1
      = Response.ok "../x".toList ∧
    lookupNode
      (renameHandler "/".toList "/files".toList nestedFs "a/b.txt".toList "../../x".toList).2
      "/x".toList = some (plainNode Kind.file 3) ∧
    lookupNode
      (renameHandler "/".toList "/files".toList nestedFs "a/b.txt".toList "../../x".toList).2
      "/files/a/b.txt".toList = none := by
  refine ⟨by decide, by decide, by decide, by decide, by decide, by decide⟩

/-- C5, as stated, fails: the normalized form of the relative path `..\x` is
the single segment `..\x`, which is not a `..` segment, yet the resolver
against `/files` answers `/files/x` and not the root joined with the
normalized path, `/files/..\x`. -/
theorem C5_backslash_parent_stripped :
    isAbsolute "..\\x".toList = false ∧
    normalizeSegments "..\\x".toList true = ["..\\x".toList] ∧
    normalize "..\\x".toList = "..\\x".toList ∧
    join ["/files".toList, normalize "..\\x".toList] = "/files/..\\x".toList ∧
    makeResolver "/".toList "/files".toList "..\\x".toList
      = Resolved.ok "/files/x".toList ∧
    makeResolver "/".toList "/files".toList "..\\x".toList
      ≠ Resolved.ok (join ["/files".toList, normalize "..\\x".toList]) := by
  refine ⟨by decide, by decide, by decide, by decide, by decide, by decide⟩

/-- C5, amended: for an absolute canonical root (`path.resolve(root) = root`)
and a relative path from whose normalized form `sanitizePath` strips nothing,
the resolver accepts, and the accepted path is made of the segments of the
root followed by the segments of the normalized path; it is
`path.join(root, path.normalize(p))` up to the trailing separator that
`path.join` keeps.  With the root `/files`, `a/../b` resolves to `/files/b`. -/
theorem C5_resolver_joins_normalized_path (cwd root p : Str)
    (hroot : isAbsolute root = true) (hcanon : resolve cwd [root] = root)
    (hp : isAbsolute p = false)
    (hstrip : stripLeadingParents (normalize p) = normalize p) :
    makeResolver cwd root p
      = Resolved.ok ('/' :: ['/'].intercalate
          (normalizeSegments root false ++ normalizeSegments p true)) ∧
    (join [root, normalize p]
        = '/' :: ['/'].intercalate (normalizeSegments root false ++ normalizeSegments p true) ∨
      join [root, normalize p]
        = '/' :: ['/'].intercalate (normalizeSegments root false ++ normalizeSegments p true)
            ++ ['/']) ∧
    (∀ dir : Str, makeResolver dir "/files".toList "a/../b".toList
      = Resolved.ok "/files/b".toList) :=
  ⟨makeResolver_unstripped cwd root p hroot hcanon hp hstrip,
    join_root_normalize root p hroot hp hstrip, fun _ => rfl⟩

/-- C5, at a concrete input: the root `/srv/files` and the path
`docs/./a/../b//c/`, which normalizes to `docs/b/c/`. -/
theorem C5_resolver_joins_normalized_path_witness :
    isAbsolute "/srv/files".toList = true ∧
    resolve "/".toList ["/srv/files".toList] = "/srv/files".toList ∧
    isAbsolute "docs/./a/../b//c/".toList = false ∧
    normalize "docs/./a/../b//c/".toList = "docs/b/c/".toList ∧
    stripLeadingParents (normalize "docs/./a/../b//c/".toList)
      = normalize "docs/./a/../b//c/".toList ∧
    makeResolver "/".toList "/srv/files".toList "docs/./a/../b//c/".toList
      = Resolved.ok "/srv/files/docs/b/c".toList :=
  ⟨by decide, by decide, by decide, by decide, by decide,
    (C5_resolver_joins_normalized_path "/".toList "/srv/files".toList
      "docs/./a/../b//c/".toList (by decide) (by decide) (by decide) (by decide)).1⟩

/-- C6, as stated, fails: `canonicalCompare` is total and transitive and
answers 0 on the two distinct names of `accentFs`, which are canonically
equivalent; `accentFsSwapped` stores the same nodes in another enumeration
order, and the two listings differ: names that compare equal keep their
enumeration order. -/
theorem C6_equal_names_keep_enumeration_order :
    (∀ a b : Str, canonicalCompare a b ≤ 0 ∨ canonicalCompare b a ≤ 0) ∧
    (∀ a b c : Str, canonicalCompare a b ≤ 0 → canonicalCompare b c ≤ 0 →
      canonicalCompare a c ≤ 0) ∧
    composedName ≠ decomposedName ∧
    canonicalCompare composedName decomposedName = 0 ∧
    canonicalCompare decomposedName composedName = 0 ∧
    (∀ key : Str, nodeAt accentFsSwapped key = nodeAt accentFs key) ∧
    listedNames (listHandler canonicalCompare "/".toList "/files".toList accentFs [])
      = [composedName, decomposedName] ∧
    listedNames (listHandler canonicalCompare "/".toList "/files".toList accentFsSwapped [])
      = [decomposedName, composedName] := by
  refine ⟨canonicalCompare_total, canonicalCompare_trans, by decide, by decide, by decide,
    ?_, by decide, by decide⟩
  exact nodeAt_perm accentFs accentFsSwapped
    (List.Perm.cons _ (List.Perm.cons _ (List.Perm.swap _ _ _))) (by decide)

/-- C6, amended: a directory listing, for a name comparison that is total and
transitive.  The children of the response are a rearrangement of the described
entries; a directory never comes after a non-directory and within each of the
two groups the names ascend.  When no two distinct names of the directory
compare equal, every table that stores the same nodes, whatever its
enumeration order, gives the same response.  The entries `b.txt`, `A`, `a.txt`
of `listedFs`, where `A` is a directory, come out as `A`, `a.txt`, `b.txt` once
`a.txt` sorts before `b.txt`. -/
theorem C6_listing_order (cmp : Str → Str → Int)
    (htotal : ∀ a b, cmp a b ≤ 0 ∨ cmp b a ≤ 0)
    (htrans : ∀ a b c, cmp a b ≤ 0 → cmp b c ≤ 0 → cmp a c ≤ 0)
    (cwd baseDir : Str) (fs : Fs) (param fullPath : Str) (stat : Stat)
    (entries : List Str)
    (hres : makeResolver cwd baseDir (if param = [] then ['.', '/'] else param)
      = Resolved.ok fullPath)
    (hstat : fsStat fs fullPath = some stat) (hdir : stat.isDirectory = true)
    (hread : readdir fs fullPath = some entries) :
    ∃ children : List Child,
      listHandler cmp cwd baseDir fs param
        = Response.ok (Listing.dir (basename fullPath)
            (if param = [] then ['.', '/'] else param)
            (dirname (if param = [] then ['.', '/'] else param)) children
            { create := stat.birthtime, access := stat.atime, modified := stat.mtime }) ∧
      children.Perm (entries.map
        (describeChild fs fullPath (if param = [] then ['.', '/'] else param))) ∧
      children.Pairwise (fun a b =>
        ¬ (a.type ≠ FileType.dir ∧ b.type = FileType.dir) ∧
        ((a.type = FileType.dir ↔ b.type = FileType.dir) → cmp a.name b.name ≤ 0)) ∧
      ((∀ a ∈ entries, ∀ b ∈ entries, cmp a b ≤ 0 → cmp b a ≤ 0 → a = b) →
        ∀ fs' : Fs, (∀ key : Str, nodeAt fs' key = nodeAt fs key) →
          listHandler cmp cwd baseDir fs' param = listHandler cmp cwd baseDir fs param) ∧
      (cmp "a.txt".toList "b.txt".toList ≤ 0 → ¬ cmp "b.txt".toList "a.txt".toList ≤ 0 →
        listedNames (listHandler cmp "/".toList "/files".toList listedFs [])
          = ["A".toList, "a.txt".toList, "b.txt".toList]) := by
  refine ⟨listChildren cmp fs fullPath (if param = [] then ['.', '/'] else param) entries,
    listHandler_directory cmp cwd baseDir fs param fullPath stat entries hres hstat hdir
      hread,
    sortChildren_perm cmp _, ?_, ?_, ?_⟩
  · exact (sortChildren_sorted cmp htotal htrans _).imp
      (fun {a b} h => compareChildren_order cmp a b h)
  · intro hanti fs' h
    exact listHandler_congr cmp htotal htrans cwd baseDir fs fs' param fullPath stat entries
      hres hstat hdir hread hanti h
  · intro hab hba
    rw [listHandler_directory cmp "/".toList "/files".toList listedFs [] "/files".toList
      { isDirectory := true, isSymbolicLink := false, size := 4096,
        birthtime := 0, atime := 0, mtime := 0 }
      ["b.txt".toList, "A".toList, "a.txt".toList] (by decide) (by decide) rfl (by decide)]
    simp only [listedNames, if_true]
    have hA : (describeChild listedFs "/files".toList ['.', '/'] "A".toList).type
        = FileType.dir := by decide
    have ha : (describeChild listedFs "/files".toList ['.', '/'] "a.txt".toList).type
        = FileType.text := by decide
    have hb : (describeChild listedFs "/files".toList ['.', '/'] "b.txt".toList).type
        = FileType.text := by decide
    have hsorted : (["A".toList, "a.txt".toList, "b.txt".toList].map
        (describeChild listedFs "/files".toList ['.', '/'])).Pairwise
        (fun a b => compareChildren cmp a b ≤ 0) := by
      simp only [List.map, List.pairwise_cons, List.mem_cons, List.mem_singleton,
        List.not_mem_nil, forall_eq_or_imp, forall_eq, List.Pairwise.nil, and_true,
        IsEmpty.forall_iff, implies_true, compareChildren, hA, ha, hb, describeChild_name]
      refine ⟨⟨by simp, by simp⟩, ?_⟩
      rw [if_neg (by simp), if_neg (by simp)]
      exact hab
    have hperm : (["A".toList, "a.txt".toList, "b.txt".toList].map
        (describeChild listedFs "/files".toList ['.', '/'])).Perm
        (["b.txt".toList, "A".toList, "a.txt".toList].map
          (describeChild listedFs "/files".toList ['.', '/'])) := by
      refine List.Perm.map _ ?_
      exact ((List.Perm.swap _ _ _).trans (List.Perm.cons _ (List.Perm.swap _ _ _))).symm
    have hanti : ∀ n ∈ ["b.txt".toList, "A".toList, "a.txt".toList],
        ∀ m ∈ ["b.txt".toList, "A".toList, "a.txt".toList],
        compareChildren cmp (describeChild listedFs "/files".toList ['.', '/'] n)
          (describeChild listedFs "/files".toList ['.', '/'] m) ≤ 0 →
        compareChildren cmp (describeChild listedFs "/files".toList ['.', '/'] m)
          (describeChild listedFs "/files".toList ['.', '/'] n) ≤ 0 → n = m := by
      intro n hn m hm h1 h2
      have hnames := compareChildren_names cmp _ _ h1 h2
      rw [describeChild_name, describeChild_name] at hnames
      simp only [List.mem_cons, List.mem_singleton, List.not_mem_nil, or_false] at hn hm
      unfold compareChildren at h1 h2
      rcases hn with rfl | rfl | rfl <;> rcases hm with rfl | rfl | rfl
      all_goals first
        | rfl
        | exact absurd hnames.1 hba
        | exact absurd hnames.2 hba
        | (exfalso; revert h1; simp only [hA, ha, hb]; simp; done)
        | (exfalso; revert h2; simp only [hA, ha, hb]; simp)
    rw [listChildren_unique_on cmp htotal htrans listedFs _ _ _ _ hanti hperm hsorted]
    simp [describeChild_name]

/-- C6, at a concrete input: `canonicalCompare` on `listedFs`, whose names all
compare different, and on `listedFsReordered`, which stores the same nodes in
another enumeration order. -/
theorem C6_listing_order_witness :
    makeResolver "/".toList "/files".toList "./".toList = Resolved.ok "/files".toList ∧
    readdir listedFs "/files".toList
      = some ["b.txt".toList, "A".toList, "a.txt".toList] ∧
    readdir listedFsReordered "/files".toList
      = some ["a.txt".toList, "b.txt".toList, "A".toList] ∧
    listedNames (listHandler canonicalCompare "/".toList "/files".toList listedFs [])
      = ["A".toList, "a.txt".toList, "b.txt".toList] ∧
    listHandler canonicalCompare "/".toList "/files".toList listedFsReordered []
      = listHandler canonicalCompare "/".toList "/files".toList listedFs [] := by
  obtain ⟨_, _, _, _, hsame, hexample⟩ :=
    C6_listing_order canonicalCompare canonicalCompare_total canonicalCompare_trans
      "/".toList "/files".toList listedFs [] "/files".toList
      { isDirectory := true, isSymbolicLink := false, size := 4096,
        birthtime := 0, atime := 0, mtime := 0 }
      ["b.txt".toList, "A".toList, "a.txt".toList] (by decide) (by decide) rfl (by decide)
  refine ⟨by decide, by decide, by decide, hexample (by decide) (by decide), ?_⟩
  exact hsame (by decide) listedFsReordered
    (nodeAt_perm listedFs listedFsReordered
      (List.Perm.cons _ (List.Perm.cons _
        ((List.Perm.cons _ (List.Perm.swap _ _ _)).trans (List.Perm.swap _ _ _))))
      (by decide))

/-- C7: a directory listing whose target resolves, is a directory and can be
enumerated succeeds; every enumerated entry appears exactly once among the
children, whether or not its stat succeeds, and a child whose stat fails is
listed with permissions `EACCES`, size 0 and no time. -/
theorem C7_failed_stat_child_listed (cmp : Str → Str → Int) (cwd baseDir : Str) (fs : Fs)
    (param fullPath : Str) (stat : Stat) (entries : List Str)
    (hres : makeResolver cwd baseDir (if param = [] then ['.', '/'] else param)
      = Resolved.ok fullPath)
    (hstat : fsStat fs fullPath = some stat) (hdir : stat.isDirectory = true)
    (hread : readdir fs fullPath = some entries) :
    ∃ children : List Child,
      listHandler cmp cwd baseDir fs param
        = Response.ok (Listing.dir (basename fullPath)
            (if param = [] then ['.', '/'] else param)
            (dirname (if param = [] then ['.', '/'] else param)) children
            { create := stat.birthtime, access := stat.atime, modified := stat.mtime }) ∧
      (children.map Child.name).Perm entries ∧
      (children.map Child.name).Nodup ∧
      (∀ c ∈ children, fsStat fs (join [fullPath, c.name]) = none →
        c.permissions = Permissions.EACCES ∧ c.size = 0 ∧ c.time = none) := by
  refine ⟨listChildren cmp fs fullPath (if param = [] then ['.', '/'] else param) entries,
    ?_, ?_, ?_, ?_⟩
  · simp [listHandler, hres, existsSync, hstat, hdir, hread]
  · have h := (sortChildren_perm cmp (entries.map
        (describeChild fs fullPath (if param = [] then ['.', '/'] else param)))).map Child.name
    have hmap : (entries.map
        (describeChild fs fullPath (if param = [] then ['.', '/'] else param))).map Child.name
        = entries := by
      rw [List.map_map]
      conv_rhs => rw [← List.map_id entries]
      exact List.map_congr_left (fun n _ => describeChild_name fs fullPath _ n)
    rw [hmap] at h
    exact h
  · have h := (sortChildren_perm cmp (entries.map
        (describeChild fs fullPath (if param = [] then ['.', '/'] else param)))).map Child.name
    have hmap : (entries.map
        (describeChild fs fullPath (if param = [] then ['.', '/'] else param))).map Child.name
        = entries := by
      rw [List.map_map]
      conv_rhs => rw [← List.map_id entries]
      exact List.map_congr_left (fun n _ => describeChild_name fs fullPath _ n)
    rw [hmap] at h
    exact h.nodup_iff.2 (readdir_nodup fs fullPath entries hread)
  · intro c hc hfail
    have hc' : c ∈ entries.map
        (describeChild fs fullPath (if param = [] then ['.', '/'] else param)) :=
      (sortChildren_perm cmp _).mem_iff.1 hc
    obtain ⟨n, _, rfl⟩ := List.mem_map.1 hc'
    rw [describeChild_name] at hfail
    exact describeChild_failed_stat fs fullPath _ n hfail

/-- C7, at a concrete input: listing the root of `danglingFs`, whose entry
`gone` is a broken link: the listing succeeds, both entries are listed, and
`gone` is described with `EACCES`, size 0 and no time. -/
theorem C7_failed_stat_child_listed_witness :
    makeResolver "/".toList "/files".toList "./".toList = Resolved.ok "/files".toList ∧
    readdir danglingFs "/files".toList = some ["ok.txt".toList, "gone".toList] ∧
    fsStat danglingFs (join ["/files".toList, "gone".toList]) = none ∧
    (∃ children : List Child,
      listHandler codeUnitCompare "/".toList "/files".toList danglingFs []
        = Response.ok (Listing.dir "files".toList "./".toList ".".toList children
            { create := 0, access := 0, modified := 0 }) ∧
      (children.map Child.name).Perm ["ok.txt".toList, "gone".toList] ∧
      (children.map Child.name).Nodup ∧
      (∀ c ∈ children, fsStat danglingFs (join ["/files".toList, c.name]) = none →
        c.permissions = Permissions.EACCES ∧ c.size = 0 ∧ c.time = none)) :=
  ⟨by decide, by decide, by decide,
    C7_failed_stat_child_listed codeUnitCompare "/".toList "/files".toList danglingFs []
      "/files".toList
      { isDirectory := true, isSymbolicLink := false, size := 4096,
        birthtime := 0, atime := 0, mtime := 0 }
      ["ok.txt".toList, "gone".toList] (by decide) (by decide) rfl (by decide)⟩

/-- C8, as stated, fails: in `nestedFs` the path `a/b.txt/c` resolves inside
the root `/files` and does not exist, yet mkdir does not succeed: `a/b.txt` is
a regular file, `fs.mkdir` throws and the handler answers `MKDIR_FAILED`.
And the empty path resolves to the root, which does not exist in `bareFs`, but
is answered `MISSING_FIELDS`. -/
theorem C8_mkdir_can_fail :
    makeResolver "/".toList "/files".toList "a/b.txt/c".toList
      = Resolved.ok "/files/a/b.txt/c".toList ∧
    existsSync nestedFs "/files/a/b.txt/c".toList = false ∧
    (fsMkdir 0 nestedFs "/files/a/b.txt/c".toList).2 = false ∧
    (mkdirHandler 0 "/".toList "/files".toList nestedFs "a/b.txt/c".toList).1
      = Response.error 500 ErrorCode.MKDIR_FAILED ∧
    makeResolver "/".toList "/files".toList [] = Resolved.ok "/files".toList ∧
    existsSync bareFs "/files".toList = false ∧
    (mkdirHandler 0 "/".toList "/files".toList bareFs []).1
      = Response.error 400 ErrorCode.MISSING_FIELDS := by
  refine ⟨by decide, by decide, by decide, by decide, by decide, by decide, by decide⟩

/-- C8, amended: for a non-empty path that resolves and does not exist, if
`fs.mkdir` does not throw, the mkdir handler answers ok with the resolved path
and leaves the filesystem `fs.mkdir` produced, in which the path exists; a
second mkdir of the same path on that filesystem answers `EEXIST` and leaves
it unchanged. -/
theorem C8_mkdir_then_mkdir (now later : Nat) (cwd baseDir : Str) (fs : Fs)
    (p fullPath : Str) (hp : p ≠ [])
    (hres : makeResolver cwd baseDir p = Resolved.ok fullPath)
    (hne : existsSync fs fullPath = false)
    (hmk : (fsMkdir now fs fullPath).2 = true) :
    mkdirHandler now cwd baseDir fs p
      = (Response.ok fullPath, (fsMkdir now fs fullPath).1) ∧
    existsSync (fsMkdir now fs fullPath).1 fullPath = true ∧
    mkdirHandler later cwd baseDir (fsMkdir now fs fullPath).1 p
      = (Response.error 400 ErrorCode.EEXIST, (fsMkdir now fs fullPath).1) := by
  have hex := existsSync_fsMkdir now fs fullPath hne hmk
  refine ⟨?_, hex, ?_⟩
  · simp [mkdirHandler, hp, hres, hne, hmk]
  · simp [mkdirHandler, hp, hres, hex]

/-- C8, at a concrete input: in `nestedFs` the path `q/r` resolves to
`/files/q/r`, which does not exist, and `fs.mkdir` does not throw; the first
mkdir creates it, the second answers `EEXIST`. -/
theorem C8_mkdir_then_mkdir_witness :
    makeResolver "/".toList "/files".toList "q/r".toList
      = Resolved.ok "/files/q/r".toList ∧
    existsSync nestedFs "/files/q/r".toList = false ∧
    (fsMkdir 1 nestedFs "/files/q/r".toList).2 = true ∧
    (mkdirHandler 1 "/".toList "/files".toList nestedFs "q/r".toList).1
      = Response.ok "/files/q/r".toList ∧
    existsSync (mkdirHandler 1 "/".toList "/files".toList nestedFs "q/r".toList).2
      "/files/q/r".toList = true ∧
    mkdirHandler 2 "/".toList "/files".toList
        (mkdirHandler 1 "/".toList "/files".toList nestedFs "q/r".toList).2 "q/r".toList
      = (Response.error 400 ErrorCode.EEXIST,
          (mkdirHandler 1 "/".toList "/files".toList nestedFs "q/r".toList).2) := by
  have h := C8_mkdir_then_mkdir 1 2 "/".toList "/files".toList nestedFs "q/r".toList
    "/files/q/r".toList (by decide) (by decide) (by decide) (by decide)
  refine ⟨by decide, by decide, by decide, ?_⟩
  rw [h.1]
  exact ⟨rfl, h.2.1, h.2.2⟩

/-- The rename handler when `existsSync` reports the destination: it answers
`EEXIST` with status 400 and returns the filesystem it was given, whatever
`fs.rename` would do. -/
theorem renameHandler_onto_existing (cwd baseDir : Str) (fs : Fs)
    (oldPath newName fullPath : Str) (hold : oldPath ≠ []) (hnew : newName ≠ [])
    (hres : makeResolver cwd baseDir oldPath = Resolved.ok fullPath)
    (hsrc : existsSync fs fullPath = true)
    (hdst : existsSync fs (join [dirname fullPath, newName]) = true) :
    (∀ rename : Fs → Str → Str → Option Fs,
      renameHandlerWith rename cwd baseDir fs oldPath newName
        = (Response.error 400 ErrorCode.EEXIST, fs)) ∧
    renameHandler cwd baseDir fs oldPath newName
        = (Response.error 400 ErrorCode.EEXIST, fs) := by
  have h : ∀ rename : Fs → Str → Str → Option Fs,
      renameHandlerWith rename cwd baseDir fs oldPath newName
        = (Response.error 400 ErrorCode.EEXIST, fs) := by
    intro rename
    unfold renameHandlerWith
    rw [if_neg (by simp [hold, hnew])]
    simp only [hres, hsrc, renameDestination, hdst, Bool.not_true, Bool.false_eq_true,
      if_false, if_true]
  exact ⟨h, h fsRename⟩

/-- The move handler when `existsSync` reports an entry with the source's
basename in the destination directory: it answers `DEST_ALREADY_EXISTS` with
status 400 and returns the filesystem it was given, whatever `fs.rename` would
do. -/
theorem moveHandler_onto_existing (cwd baseDir : Str) (fs : Fs)
    (source destination srcPath destDir : Str)
    (hs : source ≠ []) (hd : destination ≠ [])
    (hsrc : makeResolver cwd baseDir source = Resolved.ok srcPath)
    (hdst : makeResolver cwd baseDir destination = Resolved.ok destDir)
    (hsrcEx : existsSync fs srcPath = true) (hdstEx : existsSync fs destDir = true)
    (hcoll : existsSync fs (join [destDir, basename srcPath]) = true) :
    (∀ rename : Fs → Str → Str → Option Fs,
      moveHandlerWith rename cwd baseDir fs source destination
        = (Response.error 400 ErrorCode.DEST_ALREADY_EXISTS, fs)) ∧
    moveHandler cwd baseDir fs source destination
      = (Response.error 400 ErrorCode.DEST_ALREADY_EXISTS, fs) := by
  have h : ∀ rename : Fs → Str → Str → Option Fs,
      moveHandlerWith rename cwd baseDir fs source destination
        = (Response.error 400 ErrorCode.DEST_ALREADY_EXISTS, fs) := by
    intro rename
    unfold moveHandlerWith
    rw [if_neg (by simp [hs, hd])]
    simp only [hsrc, hdst, hsrcEx, hdstEx, moveDestination, hcoll, Bool.not_true,
      Bool.false_eq_true, if_false, if_true]
  exact ⟨h, h fsRename⟩

/-- C9: in `danglingFs` the directory `/files` holds the entry `gone`, a
symbolic link whose target is missing; `readdir` lists it but `existsSync`
does not report it.  Renaming `ok.txt` to `gone` is therefore not answered
`EEXIST`: the handler calls `fs.rename`, answers ok, and afterwards the name
`gone` holds the file that was `ok.txt`; the link is lost.  A destination that
`existsSync` does report, as `b.txt` in `listedFs`, is answered `EEXIST`. -/
theorem C9_rename_replaces_dangling_link :
    readdir danglingFs "/files".toList = some ["ok.txt".toList, "gone".toList] ∧
    lookupNode danglingFs "/files/gone".toList = some (plainNode Kind.brokenLink 0) ∧
    renameDestination "/files/ok.txt".toList "gone".toList = "/files/gone".toList ∧
    existsSync danglingFs "/files/gone".toList = false ∧
    (renameHandler "/".toList "/files".toList danglingFs "ok.txt".toList "gone".toList).1
      = Response.ok "gone".toList ∧
    lookupNode
      (renameHandler "/".toList "/files".toList danglingFs "ok.txt".toList "gone".toList).2
      "/files/gone".toList = some (plainNode Kind.file 2) ∧
    lookupNode
      (renameHandler "/".toList "/files".toList danglingFs "ok.txt".toList "gone".toList).2
      "/files/ok.txt".toList = none ∧
    renameHandler "/".toList "/files".toList listedFs "a.txt".toList "b.txt".toList
      = (Response.error 400 ErrorCode.EEXIST, listedFs) := by
  refine ⟨by decide, by decide, by decide, by decide, by decide, by decide, by decide,
    by decide⟩

/-- C10: in `danglingDestFs` the destination directory `/files` holds the
entry `b.txt`, a symbolic link whose target is missing; `readdir` lists it but
`existsSync` does not report it.  Moving `a/b.txt` into `/files` is therefore
not answered `DEST_ALREADY_EXISTS`: the handler calls `fs.rename`, answers ok,
and afterwards `/files/b.txt` is the moved file; the link is lost.  Once a
regular file holds the name, the same request is answered
`DEST_ALREADY_EXISTS`. -/
theorem C10_move_replaces_dangling_link :
    readdir danglingDestFs "/files".toList = some ["a".toList, "b.txt".toList] ∧
    lookupNode danglingDestFs "/files/b.txt".toList = some (plainNode Kind.brokenLink 0) ∧
    moveDestination "/files/a/b.txt".toList "/files".toList = "/files/b.txt".toList ∧
    existsSync danglingDestFs "/files/b.txt".toList = false ∧
    (moveHandler "/".toList "/files".toList danglingDestFs "a/b.txt".toList ".".toList).1
      = Response.ok "b.txt".toList ∧
    lookupNode
      (moveHandler "/".toList "/files".toList danglingDestFs "a/b.txt".toList ".".toList).2
      "/files/b.txt".toList = some (plainNode Kind.file 3) ∧
    lookupNode
      (moveHandler "/".toList "/files".toList danglingDestFs "a/b.txt".toList ".".toList).2
      "/files/a/b.txt".toList = none ∧
    moveHandler "/".toList "/files".toList
        (("/files/b.txt".toList, plainNode Kind.file 9) :: nestedFs)
        "a/b.txt".toList ".".toList
      = (Response.error 400 ErrorCode.DEST_ALREADY_EXISTS,
          ("/files/b.txt".toList, plainNode Kind.file 9) :: nestedFs) := by
  refine ⟨by decide, by decide, by decide, by decide, by decide, by decide, by decide,
    by decide⟩

/-- C11: for a path that resolves to an existing entry that is not a
directory, the view handler answers `FILE_TOO_LARGE` with status 413 exactly
when the size exceeds `5 * 1024 * 1024 = 5242880`; above the ceiling the answer
is the same for every `readFile`, so the bytes are not read; at or below it a
file whose read succeeds is answered ok with its content and size. -/
theorem C11_view_size_ceiling (readFile : Str → Encoding → Option Str)
    (cwd baseDir : Str) (fs : Fs) (param fullPath : Str) (stat : Stat)
    (hres : makeResolver cwd baseDir param = Resolved.ok fullPath)
    (hstat : fsStat fs fullPath = some stat) (hfile : stat.isDirectory = false) :
    5 * 1024 * 1024 = 5242880 ∧
    (viewHandler readFile cwd baseDir fs param
        = Response.error 413 ErrorCode.FILE_TOO_LARGE ↔ 5242880 < stat.size) ∧
    (5242880 < stat.size → ∀ other : Str → Encoding → Option Str,
      viewHandler other cwd baseDir fs param
        = Response.error 413 ErrorCode.FILE_TOO_LARGE) ∧
    (stat.size ≤ 5242880 → ∀ content : Str,
      readFile fullPath Encoding.utf8 = some content →
      viewHandler readFile cwd baseDir fs param = Response.ok (content, stat.size)) := by
  have hview : ∀ other : Str → Encoding → Option Str,
      viewHandler other cwd baseDir fs param =
        if stat.size > 5 * 1024 * 1024 then Response.error 413 ErrorCode.FILE_TOO_LARGE
        else
          match other fullPath Encoding.utf8 with
          | some content => Response.ok (content, stat.size)
          | none =>
            match other fullPath Encoding.binary with
            | some _ =>
              Response.ok ("[Binary file - ".toList ++ (Nat.repr stat.size).toList
                ++ " bytes]".toList, stat.size)
            | none => Response.error 500 ErrorCode.UNKNOWN := by
    intro other
    simp [viewHandler, hres, existsSync, hstat, hfile]
  refine ⟨by norm_num, ?_, ?_, ?_⟩
  · rw [hview readFile]
    constructor
    · intro h
      by_contra hle
      rw [if_neg (by omega)] at h
      cases h1 : readFile fullPath Encoding.utf8 with
      | some c => simp [h1] at h
      | none =>
        cases h2 : readFile fullPath Encoding.binary with
        | some c => simp [h1, h2] at h
        | none => simp [h1, h2] at h
    · intro h
      rw [if_pos (by omega)]
  · intro h other
    rw [hview other, if_pos (by omega)]
  · intro h content hread
    rw [hview readFile, if_neg (by omega)]
    simp [hread]

/-- C11, at concrete inputs: `big.bin` of exactly 5242880 bytes is answered
ok, and of 5242881 bytes is answered `FILE_TOO_LARGE` even by a `readFile`
that rejects every call. -/
theorem C11_view_size_ceiling_witness :
    makeResolver "/".toList "/files".toList "big.bin".toList
      = Resolved.ok "/files/big.bin".toList ∧
    viewHandler readsData "/".toList "/files".toList (sizedFs 5242880) "big.bin".toList
      = Response.ok ("data".toList, 5242880) ∧
    viewHandler readsNothing "/".toList "/files".toList (sizedFs 5242881) "big.bin".toList
      = Response.error 413 ErrorCode.FILE_TOO_LARGE :=
  ⟨by decide,
    (C11_view_size_ceiling readsData "/".toList "/files".toList (sizedFs 5242880)
      "big.bin".toList "/files/big.bin".toList
      { isDirectory := false, isSymbolicLink := false, size := 5242880,
        birthtime := 0, atime := 0, mtime := 0 }
      (by decide) (by decide) rfl).2.2.2 (Nat.le_refl _) "data".toList rfl,
    (C11_view_size_ceiling readsData "/".toList "/files".toList (sizedFs 5242881)
      "big.bin".toList "/files/big.bin".toList
      { isDirectory := false, isSymbolicLink := false, size := 5242881,
        birthtime := 0, atime := 0, mtime := 0 }
      (by decide) (by decide) rfl).2.2.1 (Nat.lt_succ_self _) readsNothing⟩

/-- C12: a successful mkdir answers with the absolute path the resolver
produced: for the root `/files` and the path `q/r` the value of the response is
`/files/q/r`, while rename and move on the same filesystem answer with paths
relative to the root. -/
theorem C12_mkdir_answers_absolute_path :
    makeResolver "/".toList "/files".toList "q/r".toList
      = Resolved.ok "/files/q/r".toList ∧
    (mkdirHandler 1 "/".toList "/files".toList nestedFs "q/r".toList).1
      = Response.ok "/files/q/r".toList ∧
    isAbsolute "/files/q/r".toList = true ∧
    (renameHandler "/".toList "/files".toList nestedFs "a/b.txt".toList "c.txt".toList).1
      = Response.ok "a/c.txt".toList ∧
    (moveHandler "/".toList "/files".toList nestedFs "a/b.txt".toList ".".toList).1
      = Response.ok "b.txt".toList := by
  refine ⟨by decide, by decide, by decide, by decide, by decide⟩

/-- C13: for a regular file whose stat succeeds, `getFileType` is the category
of `fileTypeMap` whose list holds the lowercased extension, and `other` when no
list holds it; two regular files whose extensions agree after lowercasing are
classified alike; a path whose stat fails is classified `other`; `x.PNG` and
`x.png` are both `image`. -/
theorem C13_classified_by_lowercased_extension (fs : Fs) (fullPath : Str) (stat : Stat)
    (hstat : fsStat fs fullPath = some stat) (hdir : stat.isDirectory = false)
    (hlink : stat.isSymbolicLink = false) :
    (∀ (t : FileType) (exts : List Str), (t, exts) ∈ fileTypeMap →
      toLowerCase ((extname fullPath).drop 1) ∈ exts → getFileType fs fullPath = t) ∧
    ((∀ (t : FileType) (exts : List Str), (t, exts) ∈ fileTypeMap →
      toLowerCase ((extname fullPath).drop 1) ∉ exts) →
      getFileType fs fullPath = FileType.other) ∧
    (∀ (fs' : Fs) (other : Str) (stat' : Stat), fsStat fs' other = some stat' →
      stat'.isDirectory = false → stat'.isSymbolicLink = false →
      toLowerCase ((extname other).drop 1) = toLowerCase ((extname fullPath).drop 1) →
      getFileType fs' other = getFileType fs fullPath) ∧
    (∀ (fs' : Fs) (missing : Str), fsStat fs' missing = none →
      getFileType fs' missing = FileType.other) ∧
    getFileType caseFs "/files/x.PNG".toList = FileType.image ∧
    getFileType caseFs "/files/x.png".toList = FileType.image := by
  refine ⟨?_, ?_, ?_, ?_, by decide, by decide⟩
  · intro t exts hmem hext
    rw [getFileType_regular fs fullPath stat hstat hdir hlink]
    generalize toLowerCase ((extname fullPath).drop 1) = x at hext ⊢
    cases hfind : fileTypeMap.find? (fun e => e.2.contains x) with
    | none =>
      have := List.find?_eq_none.1 hfind (t, exts) hmem
      simp [hext] at this
    | some e =>
      have he := List.mem_of_find?_eq_some hfind
      have hc : x ∈ e.2 := by simpa using List.find?_some hfind
      exact fileTypeMap_disjoint e he (t, exts) hmem x hc hext
  · intro hnone
    rw [getFileType_regular fs fullPath stat hstat hdir hlink]
    generalize toLowerCase ((extname fullPath).drop 1) = x at hnone ⊢
    cases hfind : fileTypeMap.find? (fun e => e.2.contains x) with
    | none => rfl
    | some e =>
      have he := List.mem_of_find?_eq_some hfind
      have hc : x ∈ e.2 := by simpa using List.find?_some hfind
      exact absurd hc (hnone e.1 e.2 he)
  · intro fs' other stat' hstat' hdir' hlink' hext
    rw [getFileType_regular fs fullPath stat hstat hdir hlink,
      getFileType_regular fs' other stat' hstat' hdir' hlink', hext]
  · intro fs' missing hnone
    simp [getFileType, hnone]

/-- C13, at a concrete input: `x.PNG` in `caseFs`, whose lowercased extension
`png` stands in the list of `image`. -/
theorem C13_classified_by_lowercased_extension_witness :
    toLowerCase ((extname "/files/x.PNG".toList).drop 1) = "png".toList ∧
    getFileType caseFs "/files/x.PNG".toList = FileType.image ∧
    getFileType caseFs "/files/x.png".toList = getFileType caseFs "/files/x.PNG".toList :=
  ⟨by decide,
    (C13_classified_by_lowercased_extension caseFs "/files/x.PNG".toList
      { isDirectory := false, isSymbolicLink := false, size := 9,
        birthtime := 0, atime := 0, mtime := 0 }
      (by decide) rfl rfl).1 FileType.image
      (["jpg", "jpeg", "png", "gif", "webp", "svg", "bmp", "ico"].map String.toList)
      (by decide) (by decide),
    (C13_classified_by_lowercased_extension caseFs "/files/x.PNG".toList
      { isDirectory := false, isSymbolicLink := false, size := 9,
        birthtime := 0, atime := 0, mtime := 0 }
      (by decide) rfl rfl).2.2.1 caseFs "/files/x.png".toList
      { isDirectory := false, isSymbolicLink := false, size := 9,
        birthtime := 0, atime := 0, mtime := 0 }
      (by decide) rfl rfl (by decide)⟩

/-- C14: `getFileType` never answers `symlink`: it classifies from `fs.stat`,
which follows links, so `isSymbolicLink()` is false on every result.  In
`linkedFs` the link `x.png` to a regular file is classified `image` and the
broken link `gone.png` is classified `other`. -/
theorem C14_symlink_never_reported :
    (∀ (fs : Fs) (fullPath : Str), getFileType fs fullPath ≠ FileType.symlink) ∧
    getFileType linkedFs "/files/x.png".toList = FileType.image ∧
    lookupNode linkedFs "/files/gone.png".toList = some (plainNode Kind.brokenLink 0) ∧
    getFileType linkedFs "/files/gone.png".toList = FileType.other := by
  refine ⟨?_, by decide, by decide, by decide⟩
  intro fs fullPath
  cases hstat : fsStat fs fullPath with
  | none => simp [getFileType, hstat]
  | some stat =>
    by_cases hdir : stat.isDirectory = true
    · simp [getFileType, hstat, hdir]
    · have hdir' : stat.isDirectory = false := by simpa using hdir
      rw [getFileType_regular fs fullPath stat hstat hdir'
        (fsStat_isSymbolicLink fs fullPath stat hstat)]
      cases hfind : fileTypeMap.find?
          (fun e => e.2.contains (toLowerCase ((extname fullPath).drop 1))) with
      | none => simp
      | some e => exact (fileTypeMap_no_entry_kind e (List.mem_of_find?_eq_some hfind)).1

/-- C15, as stated, fails: the relative path `..\/etc` is rejected with
`EPATHINJECTION` against the canonical root `/files`, because stripping the
leading `..\` leaves the absolute `/etc`; and against the root `/files/`,
which `path.normalize` leaves as it is, the relative path `.` is rejected. -/
theorem C15_relative_path_rejected :
    isAbsolute "..\\/etc".toList = false ∧
    normalize "/files".toList = "/files".toList ∧
    sanitizePath "..\\/etc".toList = "/etc".toList ∧
    makeResolver "/".toList "/files".toList "..\\/etc".toList
      = Resolved.error ErrorCode.EPATHINJECTION ∧
    isAbsolute ".".toList = false ∧
    normalize "/files/".toList = "/files/".toList ∧
    makeResolver "/".toList "/files/".toList ".".toList
      = Resolved.error ErrorCode.EPATHINJECTION := by
  refine ⟨by decide, by decide, by decide, by decide, by decide, by decide, by decide⟩

/-- C15, amended: against an absolute canonical root (`path.resolve(root) =
root`) every relative path whose sanitized form is not absolute is accepted,
never rejected with `EPATHINJECTION`: no segment of the sanitized path is
`..`, its segments are appended to the root's, and the accepted path is inside
the root. -/
theorem C15_relative_path_remapped (cwd root p : Str)
    (hroot : isAbsolute root = true) (hcanon : resolve cwd [root] = root)
    (hp : isAbsolute p = false) (hsan : isAbsolute (sanitizePath p) = false) :
    makeResolver cwd root p
        = Resolved.ok ('/' :: ['/'].intercalate (normalizeSegments root false ++
            normalizeSegments (sanitizePath p) false)) ∧
    insideRoot root ('/' :: ['/'].intercalate (normalizeSegments root false ++
            normalizeSegments (sanitizePath p) false)) = true ∧
    makeResolver cwd root p ≠ Resolved.error ErrorCode.EPATHINJECTION ∧
    (∀ seg ∈ (sanitizePath p).splitOn '/', seg ≠ ['.', '.']) := by
  have h := makeResolver_sanitized_relative cwd root p hroot hcanon hp hsan
  refine ⟨h.1, h.2, ?_, sanitizePath_no_parent_segment p hp⟩
  rw [h.1]
  exact fun e => Resolved.noConfusion e

/-- C15, at concrete inputs: against `/files` the traversal
`../../a/./b/../c/` is accepted as `/files/a/c`, and the path
`../..\a\b.txt`, which holds backslashes, is sanitized to `a\b.txt` and
accepted as `/files/a\b.txt`. -/
theorem C15_relative_path_remapped_witness :
    isAbsolute "/files".toList = true ∧
    resolve "/".toList ["/files".toList] = "/files".toList ∧
    isAbsolute "../../a/./b/../c/".toList = false ∧
    sanitizePath "../../a/./b/../c/".toList = "a/c/".toList ∧
    makeResolver "/".toList "/files".toList "../../a/./b/../c/".toList
      = Resolved.ok "/files/a/c".toList ∧
    insideRoot "/files".toList "/files/a/c".toList = true ∧
    isAbsolute "../..\\a\\b.txt".toList = false ∧
    sanitizePath "../..\\a\\b.txt".toList = "a\\b.txt".toList ∧
    makeResolver "/".toList "/files".toList "../..\\a\\b.txt".toList
      = Resolved.ok "/files/a\\b.txt".toList ∧
    insideRoot "/files".toList "/files/a\\b.txt".toList = true :=
  ⟨by decide, by decide, by decide, by decide,
    (C15_relative_path_remapped "/".toList "/files".toList "../../a/./b/../c/".toList
      (by decide) (by decide) (by decide) (by decide)).1,
    (C15_relative_path_remapped "/".toList "/files".toList "../../a/./b/../c/".toList
      (by decide) (by decide) (by decide) (by decide)).2.1,
    by decide, by decide,
    (C15_relative_path_remapped "/".toList "/files".toList "../..\\a\\b.txt".toList
      (by decide) (by decide) (by decide) (by decide)).1,
    (C15_relative_path_remapped "/".toList "/files".toList "../..\\a\\b.txt".toList
      (by decide) (by decide) (by decide) (by decide)).2.1⟩

end Fsbrowse
